import Mathlib

/-!
Verification of the reth e2e-test-utils harness against its specification.

The development shallowly embeds the harness code:
* `TxStream` models `crates/e2e-test-utils/src/transaction.rs` (the
  rate-limited `TransactionStream` and the nonce-sequenced
  `TransactionTestContext`),
* `Node` models `crates/e2e-test-utils/src/node.rs` (the advancement state
  machine and its polling loops),
* `Topo` models `crates/e2e-test-utils/src/lib.rs` (the network builder),
* `Rpc` models `crates/e2e-test-utils/src/rpc.rs` (the RPC injector).

Asynchronous futures are modelled by explicit task identifiers together with
a readiness oracle that is fixed for the duration of one poll; the tokio
interval timer is modelled by a budget of ready ticks (tokio accumulates
missed ticks, so several consecutive `poll_tick` calls may be ready, but only
finitely many).
-/

namespace TxStream

/-- Identifier of one generation task: the n-th invocation of the stored
generator function. -/
abbrev TaskId := Nat

/-- State of `TransactionStream` (transaction.rs lines 24-30): the optional
in-flight generation future and the generator, modelled as a counter of how
many futures the generator has produced so far. -/
structure StreamState where
  pendingFuture : Option TaskId
  nextTask : TaskId
deriving DecidableEq

/-- Observable events of one or several polls of the stream: a generation
task is started, or a finished task's result is emitted. -/
inductive Ev
  | started (t : TaskId)
  | emitted (t : TaskId)
deriving DecidableEq

/-- transaction.rs lines 65-69: `generate_future` stores a fresh future
produced by the generator, but only when no future is pending. -/
def generate_future (s : StreamState) : StreamState :=
  if s.pendingFuture.isNone then
    { pendingFuture := some s.nextTask, nextTask := s.nextTask + 1 }
  else s

/-- transaction.rs lines 85-102: one call of `Stream::poll_next`.
`ready t` tells whether polling task `t` would return `Poll::Ready` (fixed
for the duration of this call), and `b` is the number of interval ticks that
are still ready (`interval.poll_tick` is ready exactly `b` more times).
The loop body is: (1) poll a pending future and emit if ready; (2) start a
future if none is pending; (3) poll the interval timer, continuing on a tick
and suspending otherwise.  Returns the emitted result (`none` models
`Poll::Pending`), the successor state and the event log of the call. -/
def poll_next (ready : TaskId → Bool) : StreamState → Nat →
    Option TaskId × StreamState × List Ev
  | s, 0 =>
    match s.pendingFuture with
    | some t =>
      if ready t then
        (some t, { s with pendingFuture := none }, [Ev.emitted t])
      else (none, s, [])
    | none => (none, generate_future s, [Ev.started s.nextTask])
  | s, b + 1 =>
    match s.pendingFuture with
    | some t =>
      if ready t then
        (some t, { s with pendingFuture := none }, [Ev.emitted t])
      else
        -- `generate_future` is a no-op here (the slot is occupied); the
        -- ready tick loops back to step 1
        poll_next ready s b
    | none =>
      let r := poll_next ready (generate_future s) b
      (r.1, r.2.1, Ev.started s.nextTask :: r.2.2)

/-- One poll of the stream as scheduled by the consumer: the readiness oracle
for generation tasks and the number of interval ticks that are ready. -/
structure PollSpec where
  ready : TaskId → Bool
  ticks : Nat

/-- A sequence of polls of one stream, with the concatenated event log. -/
def runPolls : StreamState → List PollSpec → StreamState × List Ev
  | s, [] => (s, [])
  | s, p :: ps =>
    let r := poll_next p.ready s p.ticks
    let rest := runPolls r.2.1 ps
    (rest.1, r.2.2 ++ rest.2)

/-- State of a freshly constructed stream (`TransactionStream::new`,
transaction.rs lines 39-51): no pending future, no generator call made. -/
def initialStream : StreamState := ⟨none, 0⟩

/-- Number of `started` events in a log. -/
def startedCount (l : List Ev) : Nat :=
  (l.filter fun e => match e with | Ev.started _ => true | _ => false).length

/-- Number of `emitted` events in a log. -/
def emittedCount (l : List Ev) : Nat :=
  (l.filter fun e => match e with | Ev.emitted _ => true | _ => false).length

/-- Number of in-flight generation tasks recorded in a stream state. -/
def flight (s : StreamState) : Nat := if s.pendingFuture.isSome then 1 else 0

end TxStream

namespace Node

/-- Block hashes, modelled as natural numbers. -/
abbrev Hash := Nat

/-- Block numbers. -/
abbrev BlockNumber := Nat

/-- Provider / transport error payloads (eyre / jsonrpsee errors). -/
abbrev PErr := String

/-- The part of a sealed block the polling loops read: its number and its
recomputed hash (`hash_slow`). -/
structure Block where
  number : BlockNumber
  hash : Hash
deriving DecidableEq

/-- One observation of the node's provider state, as read by one iteration of
a polling loop in node.rs.  Every provider call is fallible (the `?`
operator propagates its error). -/
structure Obs where
  latestBlock : Except PErr (Option Block)
  finishCheckpoint : Except PErr (Option BlockNumber)
  headersCheckpoint : Except PErr (Option BlockNumber)
  blockByNumber : BlockNumber → Except PErr (Option Block)

/-- Result of a harness operation: success, a recoverable error propagated to
the caller, a fatal panic or failed assertion aborting the test, or
divergence (the operation is still polling when the supplied trace of
observations ends). -/
inductive Res (α : Type)
  | ok (a : α)
  | err (e : PErr)
  | fatal (msg : String)
  | hung
deriving DecidableEq

/-- node.rs line 241: the fixed sleep, in milliseconds, at the start of each
`assert_new_block` iteration. -/
def assert_new_block_sleep_ms : Nat := 20

/-- node.rs line 188: the fixed sleep of each
`wait_until_block_is_available` iteration. -/
def wait_until_block_is_available_sleep_ms : Nat := 20

/-- node.rs line 216: the fixed sleep of each `wait_unwind` iteration. -/
def wait_unwind_sleep_ms : Nat := 10

/-- node.rs lines 234-254, `NodeTestContext::assert_new_block`: sleep 20ms,
read the latest block, break when its number equals the target (asserting
the hash), otherwise retry unconditionally.  The trace lists the provider
states seen by successive iterations; the second component records the
sleeps performed. -/
def assert_new_block (block_hash : Hash) (block_number : BlockNumber) :
    List Obs → Res Unit × List Nat
  | [] => (.hung, [])
  | o :: rest =>
    match o.latestBlock with
    | .error e => (.err e, [assert_new_block_sleep_ms])
    | .ok none =>
      let r := assert_new_block block_hash block_number rest
      (r.1, assert_new_block_sleep_ms :: r.2)
    | .ok (some latest_block) =>
      if latest_block.number = block_number then
        if latest_block.hash = block_hash then
          (.ok (), [assert_new_block_sleep_ms])
        else
          (.fatal "assertion failed: latest_block.hash_slow() == block_hash",
            [assert_new_block_sleep_ms])
      else
        let r := assert_new_block block_hash block_number rest
        (r.1, assert_new_block_sleep_ms :: r.2)

/-- node.rs lines 207-212, `has_reached_finish_checkpoint`: the Finish stage
checkpoint exists and is at least the given block number. -/
def has_reached_finish_checkpoint (o : Obs) (block_number : BlockNumber) :
    Except PErr Bool :=
  match o.finishCheckpoint with
  | .error e => .error e
  | .ok (some checkpoint) => .ok (decide (block_number ≤ checkpoint))
  | .ok none => .ok false

/-- node.rs lines 181-204, `wait_until_block_is_available`: sleep 20ms, poll
until the Finish checkpoint reaches `number`, then fetch the block by that
number; a missing block is a panic, a hash mismatch a failed assertion. -/
def wait_until_block_is_available (number : BlockNumber) (expected_block_hash : Hash) :
    List Obs → Res Unit × List Nat
  | [] => (.hung, [])
  | o :: rest =>
    match has_reached_finish_checkpoint o number with
    | .error e => (.err e, [wait_until_block_is_available_sleep_ms])
    | .ok true =>
      match o.blockByNumber number with
      | .error e => (.err e, [wait_until_block_is_available_sleep_ms])
      | .ok (some latest_block) =>
        if latest_block.hash = expected_block_hash then
          (.ok (), [wait_until_block_is_available_sleep_ms])
        else
          (.fatal "assertion failed: latest_block.hash_slow() == expected_block_hash",
            [wait_until_block_is_available_sleep_ms])
      | .ok none =>
        (.fatal "Finish checkpoint matches, but could not fetch block.",
          [wait_until_block_is_available_sleep_ms])
    | .ok false =>
      let r := wait_until_block_is_available number expected_block_hash rest
      (r.1, wait_until_block_is_available_sleep_ms :: r.2)

/-- node.rs lines 214-224, `wait_unwind`: sleep 10ms, break when the Headers
stage checkpoint is exactly the given number, otherwise retry. -/
def wait_unwind (number : BlockNumber) : List Obs → Res Unit × List Nat
  | [] => (.hung, [])
  | o :: rest =>
    match o.headersCheckpoint with
    | .error e => (.err e, [wait_unwind_sleep_ms])
    | .ok (some checkpoint) =>
      if checkpoint = number then (.ok (), [wait_unwind_sleep_ms])
      else
        let r := wait_unwind number rest
        (r.1, wait_unwind_sleep_ms :: r.2)
    | .ok none =>
      let r := wait_unwind number rest
      (r.1, wait_unwind_sleep_ms :: r.2)

/-- Payload validation status (`PayloadStatusEnum`). -/
inductive PayloadStatus
  | valid
  | invalid (validationError : String)
  | syncing
  | accepted
deriving DecidableEq

/-- The part of a built payload the advancement path reads: its block's
number and hash (`payload.block().number`, `payload.block().hash()`). -/
structure BuiltPayload where
  blockNumber : BlockNumber
  blockHash : Hash
deriving DecidableEq

/-- Opaque payload builder attributes. -/
abbrev Attr := Nat

/-- Modelled from the spec: `EngineApiTestContext::submit_payload`
(engine_api.rs is not part of the excerpt).  Per spec section 4.2 it sends
the built payload with the versioned hashes to the engine endpoint, asserts
that the returned status equals the expected status (a mismatch is fatal),
and returns the resulting block hash; a transport-level failure propagates
as a recoverable error. -/
def submit_payload (payload : BuiltPayload) (_versioned_hashes : List Hash)
    (expected_status : PayloadStatus) (resp : Except PErr PayloadStatus) :
    Res Hash :=
  match resp with
  | .error e => .err e
  | .ok status =>
    if status = expected_status then .ok payload.blockHash
    else .fatal "invalid payload status"

/-- Modelled from the spec: `EngineApiTestContext::update_forkchoice`
(engine_api.rs is not part of the excerpt): issues a standard fork-choice
update naming the new head and safe block; a transport failure propagates. -/
def update_forkchoice (_head _safe : Hash) (resp : Except PErr Unit) : Res Unit :=
  match resp with
  | .error e => .err e
  | .ok _ => .ok ()

/-- Environment of one `advance` call: the outcome of building the payload
(`new_payload` delegates to the payload builder of payload.rs, not in the
excerpt — modelled from the spec as an oracle), the engine's responses to
the submit and fork-choice calls, and the provider trace seen by the
confirmation poll. -/
structure AdvanceEnv where
  newPayloadResult : Except PErr (BuiltPayload × Attr)
  submitStatusResp : Except PErr PayloadStatus
  fcuResp : Except PErr Unit
  pollTrace : List Obs

/-- Engine-level steps performed by `advance`, in execution order. -/
inductive AdvEv
  | evNewPayload
  | evSubmitPayload (versioned_hashes : List Hash) (expected : PayloadStatus)
  | evForkchoiceUpdated (head safe : Hash)
  | evAssertNewBlock (hash : Hash) (number : BlockNumber)
deriving DecidableEq

/-- node.rs lines 117-151, `NodeTestContext::advance`: build a payload,
submit it expecting status Valid, commit it via `update_forkchoice(hash,
hash)`, then poll `assert_new_block` on the payload block's own hash and
number; on success return the payload, the attributes and that hash. -/
def advance (versioned_hashes : List Hash) (env : AdvanceEnv) :
    Res (BuiltPayload × Attr × Hash) × List AdvEv :=
  match env.newPayloadResult with
  | .error e => (.err e, [.evNewPayload])
  | .ok (payload, eth_attr) =>
    match submit_payload payload versioned_hashes .valid env.submitStatusResp with
    | .err e => (.err e, [.evNewPayload, .evSubmitPayload versioned_hashes .valid])
    | .fatal m => (.fatal m, [.evNewPayload, .evSubmitPayload versioned_hashes .valid])
    | .hung => (.hung, [.evNewPayload, .evSubmitPayload versioned_hashes .valid])
    | .ok block_hash =>
      match update_forkchoice block_hash block_hash env.fcuResp with
      | .err e => (.err e, [.evNewPayload, .evSubmitPayload versioned_hashes .valid,
          .evForkchoiceUpdated block_hash block_hash])
      | .fatal m => (.fatal m, [.evNewPayload, .evSubmitPayload versioned_hashes .valid,
          .evForkchoiceUpdated block_hash block_hash])
      | .hung => (.hung, [.evNewPayload, .evSubmitPayload versioned_hashes .valid,
          .evForkchoiceUpdated block_hash block_hash])
      | .ok _ =>
        match (assert_new_block payload.blockHash payload.blockNumber env.pollTrace).1 with
        | .ok _ => (.ok (payload, eth_attr, payload.blockHash),
            [.evNewPayload, .evSubmitPayload versioned_hashes .valid,
             .evForkchoiceUpdated block_hash block_hash,
             .evAssertNewBlock payload.blockHash payload.blockNumber])
        | .err e => (.err e,
            [.evNewPayload, .evSubmitPayload versioned_hashes .valid,
             .evForkchoiceUpdated block_hash block_hash,
             .evAssertNewBlock payload.blockHash payload.blockNumber])
        | .fatal m => (.fatal m,
            [.evNewPayload, .evSubmitPayload versioned_hashes .valid,
             .evForkchoiceUpdated block_hash block_hash,
             .evAssertNewBlock payload.blockHash payload.blockNumber])
        | .hung => (.hung,
            [.evNewPayload, .evSubmitPayload versioned_hashes .valid,
             .evForkchoiceUpdated block_hash block_hash,
             .evAssertNewBlock payload.blockHash payload.blockNumber])

/-- Provider coherence: the latest block is retrievable by its own number.
This holds of any real node provider and lets the poll's exit observation
speak about `block_by_number`. -/
def ObsWellFormed (o : Obs) : Prop :=
  ∀ b : Block, o.latestBlock = .ok (some b) → o.blockByNumber b.number = .ok (some b)

/-- An owned transaction stream, identified opaquely. -/
abbrev StreamHandle := Nat

/-- The slice of `NodeTestContext` state that `advance_many` and
`inject_pending_stream` touch: the optional owned transaction stream
(`tx_stream: Option<TransactionStream>`), and the streams already handed to
the RPC injector as background tasks. -/
structure CtxState where
  tx_stream : Option StreamHandle
  injected : List StreamHandle
deriving DecidableEq

/-- node.rs lines 81-85, `inject_pending_stream`: `take()` the stream —
panicking with "TransactionStream is not set" when it is absent — and hand
it to `rpc.inject_stream`, which spawns the draining background task. -/
def inject_pending_stream (c : CtxState) : Res CtxState :=
  match c.tx_stream with
  | none => .fatal "TransactionStream is not set"
  | some s => .ok { tx_stream := none, injected := c.injected ++ [s] }

/-- The (payload, attributes) pair a successful `advance` returns on an
environment (with a default value for non-success environments). -/
def advResultPair (env : AdvanceEnv) : BuiltPayload × Attr :=
  match (advance [] env).1 with
  | .ok (payload, eth_attr, _) => (payload, eth_attr)
  | _ => (⟨0, 0⟩, 0)

/-- node.rs lines 109-112: the `for _ in 0..length` loop of `advance_many`,
calling `advance(vec![], g)` each iteration and collecting the (payload,
attributes) pairs; the `?` operator propagates the first failure. -/
def advanceLoop : Nat → List AdvanceEnv →
    Res (List (BuiltPayload × Attr)) × List AdvEv
  | 0, _ => (.ok [], [])
  | _ + 1, [] => (.hung, [])
  | n + 1, env :: envs =>
    match advance [] env with
    | (.ok (payload, eth_attr, _), log) =>
      match advanceLoop n envs with
      | (.ok chain, log2) => (.ok ((payload, eth_attr) :: chain), log ++ log2)
      | (.err e, log2) => (.err e, log ++ log2)
      | (.fatal m, log2) => (.fatal m, log ++ log2)
      | (.hung, log2) => (.hung, log ++ log2)
    | (.err e, log) => (.err e, log)
    | (.fatal m, log) => (.fatal m, log)
    | (.hung, log) => (.hung, log)

/-- node.rs lines 90-114, `advance_many`: first attach the pending
transaction stream to the node's intake, then advance `length` blocks with
empty versioned hashes, returning the chain of pairs in call order. -/
def advance_many (c : CtxState) (length : Nat) (envs : List AdvanceEnv) :
    Res (CtxState × List (BuiltPayload × Attr)) × List AdvEv :=
  match inject_pending_stream c with
  | .ok c2 =>
    match advanceLoop length envs with
    | (.ok chain, log) => (.ok (c2, chain), log)
    | (.err e, log) => (.err e, log)
    | (.fatal m, log) => (.fatal m, log)
    | (.hung, log) => (.hung, log)
  | .err e => (.err e, [])
  | .fatal m => (.fatal m, [])
  | .hung => (.hung, [])

end Node

namespace Topo

/-- A generated node context: its index and whether p2p discovery was
disabled at generation time. -/
structure NodeCtx where
  idx : Nat
  discoveryDisabled : Bool
deriving DecidableEq

/-- lib.rs lines 153-162, `TestNodeGenerator::gen`: every generated node is
configured with `disable_discovery: true`. -/
def gen (i : Nat) : NodeCtx := ⟨i, true⟩

/-- A directed connect edge: `(a, b)` records that `a.network.connect(b)`
ran. -/
abbrev Edge := Nat × Nat

/-- lib.rs lines 99-111, `connect_nodes`: connect the previous node (the
last of the already-generated network, which holds nodes `0..node_index`) to
the new node when one exists; and when the new node is the last one of a
capacity greater than two, connect it back to the first node — the
`first_mut()` lookup succeeds only when the network is nonempty, hence the
`node_index > 0` conjunct. -/
def connect_nodes (capacity node_index : Nat) : List Edge :=
  (if node_index > 0 then [(node_index - 1, node_index)] else []) ++
  (if node_index + 1 = capacity ∧ capacity > 2 ∧ node_index > 0 then
    [(node_index, 0)] else [])

/-- lib.rs lines 79-96, the loop body of `build`: generate node
`node_index`, run `connect_nodes`, push, and continue. -/
def buildGo (capacity : Nat) : Nat → Nat → List NodeCtx × List Edge
  | _, 0 => ([], [])
  | node_index, remaining + 1 =>
    let rest := buildGo capacity (node_index + 1) remaining
    (gen node_index :: rest.1, connect_nodes capacity node_index ++ rest.2)

/-- lib.rs lines 79-96, `TestNetworkBuilder::build` for a builder created
with `peers` capacity: the loop runs for `node_index` in `0..peers`. -/
def build (peers : Nat) : List NodeCtx × List Edge := buildGo peers 0 peers

end Topo

namespace TxCtx

/-- The heap of nonce counters: the target values of every
`Arc<Mutex<u64>>` allocated so far, indexed by allocation order. -/
abbrev Heap := List Nat

/-- transaction.rs lines 108-113, `TransactionTestContext` with
`#[derive(Clone)]`: `nonce: Arc<Mutex<u64>>` is modelled as the index of
its counter cell in the heap, so cloning copies the index and all clones
share one cell. -/
structure TransactionTestContext where
  chain_id : Nat
  nonce : Nat
deriving DecidableEq

/-- transaction.rs lines 117-119, `new`: allocate a fresh shared counter
starting at 0. -/
def TransactionTestContext.new (chain_id : Nat) (h : Heap) :
    TransactionTestContext × Heap :=
  (⟨chain_id, h.length⟩, h ++ [0])

/-- The derived `Clone` impl: an `Arc` clone shares the same cell. -/
def TransactionTestContext.clone (c : TransactionTestContext) :
    TransactionTestContext := c

/-- Reading `*self.nonce.lock().await`. -/
def readNonce (c : TransactionTestContext) (h : Heap) : Nat :=
  h.getD c.nonce 0

/-- transaction.rs lines 122-125, `inc_nonce`: increment the shared counter
by exactly one. -/
def inc_nonce (c : TransactionTestContext) (h : Heap) : Heap :=
  h.set c.nonce (h.getD c.nonce 0 + 1)

/-- The context-dependent fields of the built EIP-1559 transaction (the
remaining fields are constants in the source). -/
structure TxEip1559 where
  chain_id : Nat
  nonce : Nat
deriving DecidableEq

/-- transaction.rs lines 177-182, `sign_and_encode`: sign the request, then
increment the nonce by one, then return the encoded signed transaction
(modelled as the request itself). -/
def sign_and_encode (c : TransactionTestContext) (tx : TxEip1559) (h : Heap) :
    TxEip1559 × Heap :=
  (tx, inc_nonce c h)

/-- transaction.rs lines 128-146, `eip1559`: build a transaction carrying
the current shared nonce and `sign_and_encode` it. -/
def eip1559 (c : TransactionTestContext) (h : Heap) : TxEip1559 × Heap :=
  sign_and_encode c ⟨c.chain_id, readNonce c h⟩ h

/-- node.rs lines 49-52: the default generator clones the wallet for every
generated transaction, so each of the `N` sequential transactions is
produced through a fresh clone sharing the same nonce cell.  Returns the
emitted nonces in emission order. -/
def signN (c : TransactionTestContext) : Nat → Heap → List Nat × Heap
  | 0, h => ([], h)
  | n + 1, h =>
    let r := eip1559 c.clone h
    let rest := signN c n r.2
    (r.1.nonce :: rest.1, rest.2)

end TxCtx

namespace Rpc

/-- A raw encoded transaction (`Bytes`). -/
abbrev RawTx := Nat

/-- Transport / pool error payloads (`EthApiError`). -/
abbrev PErr := String

/-- The transaction hash `send_raw_transaction` returns on success. -/
abbrev TxHash := Nat

instance {α β : Type} [DecidableEq α] [DecidableEq β] :
    DecidableEq (Except α β)
  | .error e1, .error e2 =>
    if h : e1 = e2 then .isTrue (by rw [h])
    else .isFalse fun hc => h (by injection hc)
  | .error _, .ok _ => .isFalse fun hc => Except.noConfusion hc
  | .ok _, .error _ => .isFalse fun hc => Except.noConfusion hc
  | .ok v1, .ok v2 =>
    if h : v1 = v2 then .isTrue (by rw [h])
    else .isFalse fun hc => h (by injection hc)

/-- Observable events of the background injection task spawned by
`inject_stream`: a send begins, a send completes with its result, an error
is written to the log. -/
inductive SendEv
  | start (tx : RawTx)
  | finish (tx : RawTx) (r : Except PErr TxHash)
  | logged (tx : RawTx) (e : PErr)
deriving DecidableEq

/-- rpc.rs lines 16-19, `inject_tx`: forwards the raw transaction to
`eth_api.send_raw_transaction` and returns that call's result to the caller
unchanged. -/
def inject_tx (send : RawTx → Except PErr TxHash) (raw_tx : RawTx) :
    Except PErr TxHash :=
  send raw_tx

/-- rpc.rs lines 31-38: the body of the spawned task,
`stream.for_each(...)` — futures_util's `StreamExt::for_each` runs the
closure's future for one stream item to completion before taking the next
item, so the sends are strictly sequential.  Each iteration starts the send
of the current item, awaits it, and on `Err` only writes an error trace
(`error!(?e, "Error injecting tx")`) before moving on.  Returns the event
log of the task over the stream's emissions. -/
def for_each_send (send : RawTx → Except PErr TxHash) : List RawTx → List SendEv
  | [] => []
  | raw_tx :: rest =>
    SendEv.start raw_tx ::
    SendEv.finish raw_tx (send raw_tx) ::
    ((match send raw_tx with
      | .error e => [SendEv.logged raw_tx e]
      | .ok _ => []) ++ for_each_send send rest)

/-- rpc.rs lines 29-39, `inject_stream`: spawns the draining task with
`tokio::spawn` and returns immediately — the requesting caller receives
unit, never an error. -/
def inject_stream (send : RawTx → Except PErr TxHash) (stream : List RawTx) :
    Except PErr Unit × List SendEv :=
  (Except.ok (), for_each_send send stream)

/-- The transactions whose sends were started, in order. -/
def startsOf (l : List SendEv) : List RawTx :=
  l.filterMap fun e => match e with | SendEv.start t => some t | _ => none

/-- Number of sends started. -/
def startCount (l : List SendEv) : Nat :=
  (l.filter fun e => match e with | SendEv.start _ => true | _ => false).length

/-- Number of sends completed. -/
def finishCount (l : List SendEv) : Nat :=
  (l.filter fun e => match e with | SendEv.finish _ _ => true | _ => false).length

/-- Modelled from the spec (error-taxonomy sentence of section 7, sharpened
by the claim): an injection that propagates every send error to the
requester of the injection — the refinement target the code is compared
against. -/
def inject_stream_spec (send : RawTx → Except PErr TxHash) :
    List RawTx → Except PErr Unit
  | [] => .ok ()
  | raw_tx :: rest =>
    match send raw_tx with
    | .error e => .error e
    | .ok _ => inject_stream_spec send rest

/-- A send that rejects every transaction. -/
def rejectAll : RawTx → Except PErr TxHash := fun _ => .error "tx rejected"

end Rpc

namespace TxStream

/-- Closed form of one poll, proved from the loop.  A pending future that is
ready is emitted at once (the interval is never consulted on that path); a
pending future that is not ready leaves the state unchanged; with an empty
slot a task is started, and it is additionally emitted in the same poll
exactly when a tick was ready and the fresh task completes immediately. -/
theorem poll_next_spec (ready : TaskId → Bool) (s : StreamState) (b : Nat) :
    poll_next ready s b =
      match s.pendingFuture with
      | some t =>
        if ready t then (some t, { s with pendingFuture := none }, [Ev.emitted t])
        else (none, s, [])
      | none =>
        if b ≠ 0 ∧ ready s.nextTask then
          (some s.nextTask, ⟨none, s.nextTask + 1⟩, [Ev.started s.nextTask, Ev.emitted s.nextTask])
        else
          (none, ⟨some s.nextTask, s.nextTask + 1⟩, [Ev.started s.nextTask]) := by
  induction b generalizing s with
  | zero =>
    rw [poll_next]
    rcases hs : s.pendingFuture with _ | t
    · simp [generate_future, hs, Option.isNone]
    · simp [hs]
  | succ b ih =>
    rw [poll_next]
    rcases hs : s.pendingFuture with _ | t
    · have hgen : generate_future s =
          { pendingFuture := some s.nextTask, nextTask := s.nextTask + 1 } := by
        simp [generate_future, hs, Option.isNone]
      rw [hgen]
      simp only [ih]
      by_cases hr : ready s.nextTask = true
      · simp [hr]
      · simp [hr]
    · by_cases hr : ready t = true
      · simp [hs, hr]
      · simp only [ih]
        simp [hs, hr]

theorem startedCount_append (l1 l2 : List Ev) :
    startedCount (l1 ++ l2) = startedCount l1 + startedCount l2 := by
  simp [startedCount]

theorem emittedCount_append (l1 l2 : List Ev) :
    emittedCount (l1 ++ l2) = emittedCount l1 + emittedCount l2 := by
  simp [emittedCount]

theorem prefix_cons_cases {α : Type} {p : List α} {a : α} {l : List α}
    (h : p <+: a :: l) : p = [] ∨ ∃ q, p = a :: q ∧ q <+: l := by
  rcases h with ⟨t, ht⟩
  cases p with
  | nil => exact Or.inl rfl
  | cons x xs =>
    injection ht with h1 h2
    subst h1
    exact Or.inr ⟨xs, rfl, ⟨t, h2⟩⟩

theorem prefix_append_cases {α : Type} {p l1 l2 : List α} (h : p <+: l1 ++ l2) :
    p <+: l1 ∨ ∃ q, p = l1 ++ q ∧ q <+: l2 := by
  rcases h with ⟨t, ht⟩
  rcases List.append_eq_append_iff.mp ht with ⟨a, ha1, _ha2⟩ | ⟨c, hc1, hc2⟩
  · exact Or.inl ⟨a, ha1.symm⟩
  · exact Or.inr ⟨c, hc1, ⟨t, hc2.symm⟩⟩

/-- Balance of one poll: tasks started plus tasks previously in flight equal
tasks emitted plus tasks still in flight afterwards. -/
theorem poll_next_balance (ready : TaskId → Bool) (s : StreamState) (b : Nat) :
    startedCount (poll_next ready s b).2.2 + flight s
      = emittedCount (poll_next ready s b).2.2 + flight (poll_next ready s b).2.1 := by
  rw [poll_next_spec]
  rcases hs : s.pendingFuture with _ | t
  · by_cases hb : b ≠ 0 ∧ ready s.nextTask = true
    · simp [hb, startedCount, emittedCount, flight, hs]
    · simp [hb, startedCount, emittedCount, flight, hs]
  · by_cases hr : ready t = true
    · simp [hs, hr, startedCount, emittedCount, flight]
    · simp [hs, hr, startedCount, emittedCount, flight]

/-- In any prefix of one poll's log, the number of started tasks (counting the
one possibly in flight at entry) exceeds the emitted ones by at most one. -/
theorem poll_next_prefix_bound (ready : TaskId → Bool) (s : StreamState) (b : Nat)
    (pre : List Ev) (h : pre <+: (poll_next ready s b).2.2) :
    startedCount pre + flight s ≤ emittedCount pre + 1 := by
  rw [poll_next_spec] at h
  rcases hs : s.pendingFuture with _ | t <;> rw [hs] at h <;> dsimp only at h
  · by_cases hb : b ≠ 0 ∧ ready s.nextTask = true
    · rw [if_pos hb] at h
      dsimp only at h
      rcases prefix_cons_cases h with rfl | ⟨q, rfl, hq⟩
      · simp [startedCount, emittedCount, flight, hs]
      · rcases prefix_cons_cases hq with rfl | ⟨q2, rfl, hq2⟩
        · simp [startedCount, emittedCount, flight, hs]
        · rw [List.prefix_nil] at hq2
          subst hq2
          simp [startedCount, emittedCount, flight, hs]
    · rw [if_neg hb] at h
      dsimp only at h
      rcases prefix_cons_cases h with rfl | ⟨q, rfl, hq⟩
      · simp [startedCount, emittedCount, flight, hs]
      · rw [List.prefix_nil] at hq
        subst hq
        simp [startedCount, emittedCount, flight, hs]
  · by_cases hr : ready t = true
    · rw [if_pos hr] at h
      dsimp only at h
      rcases prefix_cons_cases h with rfl | ⟨q, rfl, hq⟩
      · simp [startedCount, emittedCount, flight, hs]
      · rw [List.prefix_nil] at hq
        subst hq
        simp [startedCount, emittedCount, flight, hs]
    · rw [if_neg hr] at h
      dsimp only at h
      rw [List.prefix_nil] at h
      subst h
      simp [startedCount, emittedCount, flight, hs]

/-- Run-level invariant: over any sequence of polls, every prefix of the
event log starts at most one more task than it emits, counting an initially
in-flight task. -/
theorem runPolls_prefix_bound (ps : List PollSpec) (s : StreamState)
    (pre : List Ev) (h : pre <+: (runPolls s ps).2) :
    startedCount pre + flight s ≤ emittedCount pre + 1 := by
  induction ps generalizing s pre with
  | nil =>
    rw [runPolls, List.prefix_nil] at h
    subst h
    simp only [startedCount, emittedCount, List.filter_nil, List.length_nil]
    have : flight s ≤ 1 := by
      unfold flight
      split <;> omega
    omega
  | cons p ps ih =>
    rw [runPolls] at h
    simp only at h
    rcases prefix_append_cases h with h1 | ⟨q, rfl, hq⟩
    · exact poll_next_prefix_bound p.ready s p.ticks pre h1
    · have hbal := poll_next_balance p.ready s p.ticks
      have hih := ih (poll_next p.ready s p.ticks).2.1 q hq
      rw [startedCount_append, emittedCount_append]
      omega

/-- A ready in-flight future is emitted at once and the slot cleared,
whatever the tick budget is. -/
theorem poll_next_ready_emit {ready : TaskId → Bool} {s : StreamState} {b : Nat}
    {t : TaskId} (hs : s.pendingFuture = some t) (hr : ready t = true) :
    poll_next ready s b = (some t, { s with pendingFuture := none }, [Ev.emitted t]) := by
  rw [poll_next_spec, hs]
  simp [hr]

/-- With an empty slot, the first event of the poll is the start of the
generator's next future. -/
theorem poll_next_empty_head {ready : TaskId → Bool} {s : StreamState} {b : Nat}
    (hs : s.pendingFuture = none) :
    ((poll_next ready s b).2.2).head? = some (Ev.started s.nextTask) := by
  rw [poll_next_spec, hs]
  dsimp only
  by_cases hb : b ≠ 0 ∧ ready s.nextTask = true
  · rw [if_pos hb]
    rfl
  · rw [if_neg hb]
    rfl

/-- A poll that emits leaves the in-flight slot empty. -/
theorem poll_next_emit_clears {ready : TaskId → Bool} {s : StreamState} {b : Nat}
    {t : TaskId} (h : (poll_next ready s b).1 = some t) :
    (poll_next ready s b).2.1.pendingFuture = none := by
  rw [poll_next_spec] at h ⊢
  rcases hs : s.pendingFuture with _ | u
  · rw [hs] at h
    dsimp only at h ⊢
    by_cases hb : b ≠ 0 ∧ ready s.nextTask = true
    · rw [if_pos hb]
    · rw [if_neg hb] at h
      simp at h
  · rw [hs] at h
    dsimp only at h ⊢
    by_cases hr : ready u = true
    · rw [if_pos hr]
    · rw [if_neg hr] at h
      simp at h

/-- A task is started during a poll only when the slot was empty at entry. -/
theorem poll_next_started_mem {ready : TaskId → Bool} {s : StreamState} {b : Nat}
    {t : TaskId} (h : Ev.started t ∈ (poll_next ready s b).2.2) :
    s.pendingFuture = none := by
  rw [poll_next_spec] at h
  rcases hs : s.pendingFuture with _ | u
  · rfl
  · rw [hs] at h
    dsimp only at h
    by_cases hr : ready u = true
    · rw [if_pos hr] at h
      simp at h
    · rw [if_neg hr] at h
      simp at h

/-- The in-flight slot is empty after a poll exactly when the poll emitted a
result. -/
theorem poll_next_cleared_iff (ready : TaskId → Bool) (s : StreamState) (b : Nat) :
    (poll_next ready s b).2.1.pendingFuture = none ↔
      ∃ t, Ev.emitted t ∈ (poll_next ready s b).2.2 := by
  rw [poll_next_spec]
  rcases hs : s.pendingFuture with _ | u <;> dsimp only
  · by_cases hb : b ≠ 0 ∧ ready s.nextTask = true
    · rw [if_pos hb]
      simp
    · rw [if_neg hb]
      simp
  · by_cases hr : ready u = true
    · rw [if_pos hr]
      simp
    · rw [if_neg hr]
      simp [hs]

/-- C2: each poll of the rate-limited transaction stream follows the three
step algorithm of the spec.  (1) An in-flight generation task that has
completed is emitted at once and the in-flight slot cleared; the rate limiter
adds no further delay on that path.  (2) With no task in flight, one is
started first thing.  (3) When the interval timer has not fired (no ready
tick and the in-flight task, if any, is not complete) the poll suspends
without emitting — in particular a task started in this very poll is never
emitted without a ready tick; when the timer has fired, control loops back to
step 1, so a ready tick lets a freshly started task that completes
immediately be emitted in the same poll. -/
theorem c2_poll_follows_three_steps :
    (∀ (ready : TaskId → Bool) (s : StreamState) (b : Nat) (t : TaskId),
        s.pendingFuture = some t → ready t = true →
        poll_next ready s b = (some t, { s with pendingFuture := none }, [Ev.emitted t])) ∧
    (∀ (ready : TaskId → Bool) (s : StreamState) (b : Nat),
        s.pendingFuture = none →
        ((poll_next ready s b).2.2).head? = some (Ev.started s.nextTask)) ∧
    (∀ (ready : TaskId → Bool) (s : StreamState),
        (∀ t, s.pendingFuture = some t → ready t = false) →
        (poll_next ready s 0).1 = none ∧ emittedCount (poll_next ready s 0).2.2 = 0) ∧
    (∀ (ready : TaskId → Bool) (s : StreamState) (b : Nat),
        s.pendingFuture = none → b ≠ 0 → ready s.nextTask = true →
        (poll_next ready s b).1 = some s.nextTask) := by
  refine ⟨?_, ?_, ?_, ?_⟩
  · intro ready s b t hs hr
    exact poll_next_ready_emit hs hr
  · intro ready s b hs
    exact poll_next_empty_head hs
  · intro ready s hnr
    rw [poll_next_spec]
    rcases hs : s.pendingFuture with _ | u <;> dsimp only
    · rw [if_neg (by simp)]
      simp [emittedCount]
    · rw [if_neg (by simp [hnr u hs])]
      simp [emittedCount]
  · intro ready s b hs hb hr
    rw [poll_next_spec, hs]
    dsimp only
    rw [if_pos ⟨hb, hr⟩]

/-- Witness for C2 at concrete inputs. -/
theorem c2_poll_follows_three_steps_witness :
    poll_next (fun _ => true) ⟨some 5, 6⟩ 0 = (some 5, ⟨none, 6⟩, [Ev.emitted 5]) ∧
    ((poll_next (fun _ => false) ⟨none, 3⟩ 2).2.2).head? = some (Ev.started 3) ∧
    ((poll_next (fun _ => false) ⟨some 1, 2⟩ 0).1 = none ∧
      emittedCount (poll_next (fun _ => false) ⟨some 1, 2⟩ 0).2.2 = 0) ∧
    (poll_next (fun _ => true) ⟨none, 0⟩ 1).1 = some 0 :=
  ⟨c2_poll_follows_three_steps.1 (fun _ => true) ⟨some 5, 6⟩ 0 5 rfl rfl,
   c2_poll_follows_three_steps.2.1 (fun _ => false) ⟨none, 3⟩ 2 rfl,
   c2_poll_follows_three_steps.2.2.1 (fun _ => false) ⟨some 1, 2⟩ (fun _ _ => rfl),
   c2_poll_follows_three_steps.2.2.2 (fun _ => true) ⟨none, 0⟩ 1 rfl (by decide) rfl⟩

/-- C3: at most one in-flight generation task ever exists.  In any run of
polls from a fresh stream, every prefix of the event log starts at most one
more task than it emits; a task is started only when the in-flight slot is
empty; the slot is cleared exactly when a result is emitted; and the poll
following an emitting poll starts a new task as its first event. -/
theorem c3_at_most_one_inflight :
    (∀ (ps : List PollSpec) (pre : List Ev),
        pre <+: (runPolls initialStream ps).2 →
        startedCount pre ≤ emittedCount pre + 1) ∧
    (∀ (ready : TaskId → Bool) (s : StreamState) (b : Nat) (t : TaskId),
        Ev.started t ∈ (poll_next ready s b).2.2 → s.pendingFuture = none) ∧
    (∀ (ready : TaskId → Bool) (s : StreamState) (b : Nat),
        (poll_next ready s b).2.1.pendingFuture = none ↔
          ∃ t, Ev.emitted t ∈ (poll_next ready s b).2.2) ∧
    (∀ (ready ready2 : TaskId → Bool) (s : StreamState) (b b2 : Nat) (t : TaskId),
        (poll_next ready s b).1 = some t →
        ((poll_next ready2 (poll_next ready s b).2.1 b2).2.2).head? =
          some (Ev.started ((poll_next ready s b).2.1).nextTask)) := by
  refine ⟨?_, ?_, ?_, ?_⟩
  · intro ps pre h
    have := runPolls_prefix_bound ps initialStream pre h
    simpa [initialStream, flight] using this
  · intro ready s b t h
    exact poll_next_started_mem h
  · intro ready s b
    exact poll_next_cleared_iff ready s b
  · intro ready ready2 s b b2 t h
    exact poll_next_empty_head (poll_next_emit_clears h)

/-- Witness for C3 at concrete inputs. -/
theorem c3_at_most_one_inflight_witness :
    startedCount [Ev.started 0] ≤ emittedCount [Ev.started 0] + 1 ∧
    (⟨none, 7⟩ : StreamState).pendingFuture = none ∧
    ((poll_next (fun _ => true) ⟨some 2, 3⟩ 0).2.1.pendingFuture = none ↔
      ∃ t, Ev.emitted t ∈ (poll_next (fun _ => true) ⟨some 2, 3⟩ 0).2.2) ∧
    ((poll_next (fun _ => false)
        (poll_next (fun _ => true) ⟨some 4, 9⟩ 0).2.1 0).2.2).head? =
      some (Ev.started ((poll_next (fun _ => true) ⟨some 4, 9⟩ 0).2.1).nextTask) :=
  ⟨c3_at_most_one_inflight.1 [⟨fun _ => true, 1⟩] [Ev.started 0] (by decide),
   c3_at_most_one_inflight.2.1 (fun _ => false) ⟨none, 7⟩ 0 7 (by decide),
   c3_at_most_one_inflight.2.2.1 (fun _ => true) ⟨some 2, 3⟩ 0,
   c3_at_most_one_inflight.2.2.2 (fun _ => true) (fun _ => false) ⟨some 4, 9⟩ 0 0 4 rfl⟩

end TxStream

namespace Node

/-- First-hit characterization: the availability wait returns Ok exactly
when, at the first observation whose Finish checkpoint has reached the
number, the block fetched by that number carries the expected hash. -/
theorem wait_until_ok_iff (number : BlockNumber) (expected : Hash) (trace : List Obs) :
    (wait_until_block_is_available number expected trace).1 = .ok () ↔
      ∃ pre o suff, trace = pre ++ o :: suff ∧
        (∀ p ∈ pre, has_reached_finish_checkpoint p number = .ok false) ∧
        has_reached_finish_checkpoint o number = .ok true ∧
        ∃ b, o.blockByNumber number = .ok (some b) ∧ b.hash = expected := by
  induction trace with
  | nil =>
    rw [wait_until_block_is_available]
    constructor
    · intro h
      simp at h
    · rintro ⟨pre, o, suff, heq, -, -, -⟩
      exact absurd heq (by simp)
  | cons o rest ih =>
    rw [wait_until_block_is_available]
    rcases hcp : has_reached_finish_checkpoint o number with e | b
    · dsimp only
      constructor
      · intro h
        simp at h
      · rintro ⟨pre, o', suff, heq, hpre, htrue, -⟩
        cases pre with
        | nil =>
          injection heq with h1 h2
          subst h1
          rw [hcp] at htrue
          exact absurd htrue (by simp)
        | cons p pre' =>
          injection heq with h1 h2
          subst h1
          have hmem := hpre o (by simp)
          rw [hcp] at hmem
          exact absurd hmem (by simp)
    · cases b with
      | true =>
        dsimp only
        rcases hfb : o.blockByNumber number with e | ob
        · dsimp only
          constructor
          · intro h
            simp at h
          · rintro ⟨pre, o', suff, heq, hpre, htrue, b, hb, -⟩
            cases pre with
            | nil =>
              injection heq with h1 h2
              subst h1
              rw [hfb] at hb
              exact absurd hb (by simp)
            | cons p pre' =>
              injection heq with h1 h2
              subst h1
              have hmem := hpre o (by simp)
              rw [hcp] at hmem
              exact absurd hmem (by simp)
        · cases ob with
          | none =>
            dsimp only
            constructor
            · intro h
              simp at h
            · rintro ⟨pre, o', suff, heq, hpre, htrue, b, hb, -⟩
              cases pre with
              | nil =>
                injection heq with h1 h2
                subst h1
                rw [hfb] at hb
                exact absurd hb (by simp)
              | cons p pre' =>
                injection heq with h1 h2
                subst h1
                have hmem := hpre o (by simp)
                rw [hcp] at hmem
                exact absurd hmem (by simp)
          | some blk =>
            dsimp only
            by_cases hh : blk.hash = expected
            · rw [if_pos hh]
              constructor
              · intro _
                exact ⟨[], o, rest, by simp, by simp, hcp, blk, hfb, hh⟩
              · intro _
                rfl
            · rw [if_neg hh]
              constructor
              · intro h
                simp at h
              · rintro ⟨pre, o', suff, heq, hpre, htrue, b, hb, hbh⟩
                cases pre with
                | nil =>
                  injection heq with h1 h2
                  subst h1
                  rw [hfb] at hb
                  injection hb with hb2
                  injection hb2 with hb3
                  subst hb3
                  exact absurd hbh hh
                | cons p pre' =>
                  injection heq with h1 h2
                  subst h1
                  have hmem := hpre o (by simp)
                  rw [hcp] at hmem
                  exact absurd hmem (by simp)
      | false =>
        dsimp only
        rw [ih]
        constructor
        · rintro ⟨pre, o', suff, heq, hpre, htrue, b, hb, hbh⟩
          exact ⟨o :: pre, o', suff, by rw [heq]; rfl,
            by
              intro p hp
              rcases List.mem_cons.mp hp with rfl | hp2
              · exact hcp
              · exact hpre p hp2,
            htrue, b, hb, hbh⟩
        · rintro ⟨pre, o', suff, heq, hpre, htrue, b, hb, hbh⟩
          cases pre with
          | nil =>
            injection heq with h1 h2
            subst h1
            rw [hcp] at htrue
            exact absurd htrue (by simp)
          | cons p pre' =>
            injection heq with h1 h2
            subst h1
            exact ⟨pre', o', suff, h2, fun q hq => hpre q (by simp [hq]),
              htrue, b, hb, hbh⟩

/-- When the Finish checkpoint is reached but the block cannot be fetched,
the wait panics instead of returning a recoverable error. -/
theorem wait_until_fatal_missing (number : BlockNumber) (expected : Hash)
    (pre : List Obs) (o : Obs) (suff : List Obs)
    (hpre : ∀ p ∈ pre, has_reached_finish_checkpoint p number = .ok false)
    (htrue : has_reached_finish_checkpoint o number = .ok true)
    (hmiss : o.blockByNumber number = .ok none) :
    (wait_until_block_is_available number expected (pre ++ o :: suff)).1 =
      .fatal "Finish checkpoint matches, but could not fetch block." := by
  induction pre with
  | nil =>
    rw [List.nil_append, wait_until_block_is_available, htrue]
    dsimp only
    rw [hmiss]
  | cons p pre' ih =>
    rw [List.cons_append, wait_until_block_is_available, hpre p (by simp)]
    dsimp only
    exact ih fun q hq => hpre q (by simp [hq])

/-- When the Finish checkpoint is reached and the fetched block's hash
differs from the expected one, the wait fails a fatal assertion. -/
theorem wait_until_fatal_mismatch (number : BlockNumber) (expected : Hash)
    (pre : List Obs) (o : Obs) (suff : List Obs) (b : Block)
    (hpre : ∀ p ∈ pre, has_reached_finish_checkpoint p number = .ok false)
    (htrue : has_reached_finish_checkpoint o number = .ok true)
    (hfb : o.blockByNumber number = .ok (some b)) (hbh : b.hash ≠ expected) :
    (wait_until_block_is_available number expected (pre ++ o :: suff)).1 =
      .fatal "assertion failed: latest_block.hash_slow() == expected_block_hash" := by
  induction pre with
  | nil =>
    rw [List.nil_append, wait_until_block_is_available, htrue]
    dsimp only
    rw [hfb]
    dsimp only
    rw [if_neg hbh]
  | cons p pre' ih =>
    rw [List.cons_append, wait_until_block_is_available, hpre p (by simp)]
    dsimp only
    exact ih fun q hq => hpre q (by simp [hq])

/-- C6: `wait_until_block_is_available(number, hash)` returns Ok exactly
when the Finish-stage checkpoint has reached at least `number` (for the
first time along the polling trace) and the block fetched by that number has
the expected hash; a reached checkpoint with an unfetchable block panics
fatally instead of returning a recoverable error, and a fetched block with a
different hash is a fatal assertion failure. -/
theorem c6_wait_until_block_is_available_contract :
    (∀ (number : BlockNumber) (expected : Hash) (trace : List Obs),
      (wait_until_block_is_available number expected trace).1 = .ok () ↔
        ∃ pre o suff, trace = pre ++ o :: suff ∧
          (∀ p ∈ pre, has_reached_finish_checkpoint p number = .ok false) ∧
          has_reached_finish_checkpoint o number = .ok true ∧
          ∃ b, o.blockByNumber number = .ok (some b) ∧ b.hash = expected) ∧
    (∀ (number : BlockNumber) (expected : Hash) (pre : List Obs) (o : Obs)
        (suff : List Obs),
      (∀ p ∈ pre, has_reached_finish_checkpoint p number = .ok false) →
      has_reached_finish_checkpoint o number = .ok true →
      o.blockByNumber number = .ok none →
      (wait_until_block_is_available number expected (pre ++ o :: suff)).1 =
        .fatal "Finish checkpoint matches, but could not fetch block.") ∧
    (∀ (number : BlockNumber) (expected : Hash) (pre : List Obs) (o : Obs)
        (suff : List Obs) (b : Block),
      (∀ p ∈ pre, has_reached_finish_checkpoint p number = .ok false) →
      has_reached_finish_checkpoint o number = .ok true →
      o.blockByNumber number = .ok (some b) → b.hash ≠ expected →
      (wait_until_block_is_available number expected (pre ++ o :: suff)).1 =
        .fatal "assertion failed: latest_block.hash_slow() == expected_block_hash") :=
  ⟨wait_until_ok_iff,
   fun number expected pre o suff hpre htrue hmiss =>
     wait_until_fatal_missing number expected pre o suff hpre htrue hmiss,
   fun number expected pre o suff b hpre htrue hfb hbh =>
     wait_until_fatal_mismatch number expected pre o suff b hpre htrue hfb hbh⟩

/-- Witness for C6 at concrete inputs. -/
theorem c6_wait_until_block_is_available_contract_witness :
    (wait_until_block_is_available 1 42
      [⟨.ok (some ⟨1, 42⟩), .ok (some 1), .ok none, fun k => .ok (some ⟨k, 42⟩)⟩]).1 =
        .ok () ∧
    (wait_until_block_is_available 3 7
      [⟨.ok none, .ok (some 5), .ok none, fun _ => .ok none⟩]).1 =
        .fatal "Finish checkpoint matches, but could not fetch block." ∧
    (wait_until_block_is_available 3 7
      [⟨.ok none, .ok (some 5), .ok none, fun k => .ok (some ⟨k, 99⟩)⟩]).1 =
        .fatal "assertion failed: latest_block.hash_slow() == expected_block_hash" :=
  ⟨(c6_wait_until_block_is_available_contract.1 1 42
      [⟨.ok (some ⟨1, 42⟩), .ok (some 1), .ok none, fun k => .ok (some ⟨k, 42⟩)⟩]).mpr
      ⟨[], ⟨.ok (some ⟨1, 42⟩), .ok (some 1), .ok none, fun k => .ok (some ⟨k, 42⟩)⟩, [],
        rfl, by simp, rfl, ⟨1, 42⟩, rfl, rfl⟩,
   c6_wait_until_block_is_available_contract.2.1 3 7 []
     ⟨.ok none, .ok (some 5), .ok none, fun _ => .ok none⟩ []
     (by simp) rfl rfl,
   c6_wait_until_block_is_available_contract.2.2 3 7 []
     ⟨.ok none, .ok (some 5), .ok none, fun k => .ok (some ⟨k, 99⟩)⟩ [] ⟨3, 99⟩
     (by simp) rfl rfl (by decide)⟩

/-- Every sleep performed by `assert_new_block` is the fixed 20ms one. -/
theorem assert_new_block_sleeps (bh : Hash) (bn : BlockNumber) :
    ∀ trace : List Obs, ∀ x ∈ (assert_new_block bh bn trace).2,
      x = assert_new_block_sleep_ms := by
  intro trace
  induction trace with
  | nil => simp [assert_new_block]
  | cons o rest ih =>
    intro x hx
    rw [assert_new_block] at hx
    rcases ho : o.latestBlock with e | ob <;> rw [ho] at hx
    · simp at hx
      exact hx
    · cases ob with
      | none =>
        dsimp only at hx
        rcases List.mem_cons.mp hx with rfl | hx2
        · rfl
        · exact ih x hx2
      | some b =>
        dsimp only at hx
        by_cases hn : b.number = bn
        · rw [if_pos hn] at hx
          by_cases hh : b.hash = bh
          · rw [if_pos hh] at hx
            simp at hx
            exact hx
          · rw [if_neg hh] at hx
            simp at hx
            exact hx
        · rw [if_neg hn] at hx
          dsimp only at hx
          rcases List.mem_cons.mp hx with rfl | hx2
          · rfl
          · exact ih x hx2

/-- `assert_new_block` keeps polling (beyond any finite trace) exactly when
no observed latest block carries the awaited number; termination depends
only on that condition. -/
theorem assert_new_block_hung_iff (bh : Hash) (bn : BlockNumber)
    (trace : List Obs)
    (herr : ∀ o ∈ trace, ∀ e, o.latestBlock ≠ .error e) :
    (assert_new_block bh bn trace).1 = .hung ↔
      ∀ o ∈ trace, ∀ b, o.latestBlock = .ok (some b) → b.number ≠ bn := by
  induction trace with
  | nil => simp [assert_new_block]
  | cons o rest ih =>
    rw [assert_new_block]
    rcases ho : o.latestBlock with e | ob
    · exact absurd ho (herr o (by simp) e)
    · cases ob with
      | none =>
        dsimp only
        rw [ih fun q hq e => herr q (by simp [hq]) e]
        constructor
        · intro h q hq b hb
          rcases List.mem_cons.mp hq with rfl | hq2
          · rw [ho] at hb
            cases hb
          · exact h q hq2 b hb
        · intro h q hq b hb
          exact h q (by simp [hq]) b hb
      | some b =>
        dsimp only
        by_cases hn : b.number = bn
        · rw [if_pos hn]
          by_cases hh : b.hash = bh
          · rw [if_pos hh]
            constructor
            · intro h
              simp at h
            · intro h
              exact absurd hn (h o (by simp) b ho)
          · rw [if_neg hh]
            constructor
            · intro h
              simp at h
            · intro h
              exact absurd hn (h o (by simp) b ho)
        · rw [if_neg hn]
          dsimp only
          rw [ih fun q hq e => herr q (by simp [hq]) e]
          constructor
          · intro h q hq b' hb'
            rcases List.mem_cons.mp hq with rfl | hq2
            · rw [ho] at hb'
              injection hb' with h1
              injection h1 with h2
              subst h2
              exact hn
            · exact h q hq2 b' hb'
          · intro h q hq b' hb'
            exact h q (by simp [hq]) b' hb'

/-- An error result of `assert_new_block` always stems from a provider call
that errored in the trace — never from elapsed time. -/
theorem assert_new_block_err_from_provider (bh : Hash) (bn : BlockNumber) :
    ∀ (trace : List Obs) (e : PErr),
      (assert_new_block bh bn trace).1 = .err e →
      ∃ o ∈ trace, o.latestBlock = .error e := by
  intro trace
  induction trace with
  | nil =>
    intro e h
    simp [assert_new_block] at h
  | cons o rest ih =>
    intro e h
    rw [assert_new_block] at h
    rcases ho : o.latestBlock with e' | ob <;> rw [ho] at h
    · dsimp only at h
      injection h with h1
      subst h1
      exact ⟨o, by simp, ho⟩
    · cases ob with
      | none =>
        dsimp only at h
        rcases ih e h with ⟨q, hq, hqe⟩
        exact ⟨q, by simp [hq], hqe⟩
      | some b =>
        dsimp only at h
        by_cases hn : b.number = bn
        · rw [if_pos hn] at h
          by_cases hh : b.hash = bh
          · rw [if_pos hh] at h
            simp at h
          · rw [if_neg hh] at h
            simp at h
        · rw [if_neg hn] at h
          dsimp only at h
          rcases ih e h with ⟨q, hq, hqe⟩
          exact ⟨q, by simp [hq], hqe⟩

/-- A checkpoint read error surfaces exactly as a Finish-checkpoint provider
error. -/
theorem has_reached_finish_checkpoint_error {o : Obs} {n : BlockNumber} {e : PErr}
    (h : has_reached_finish_checkpoint o n = .error e) :
    o.finishCheckpoint = .error e := by
  unfold has_reached_finish_checkpoint at h
  rcases hcp : o.finishCheckpoint with e' | ob <;> rw [hcp] at h
  · injection h with h1
    subst h1
    rfl
  · cases ob <;> simp at h

/-- Every sleep performed by `wait_until_block_is_available` is the fixed
20ms one. -/
theorem wait_until_sleeps (n : BlockNumber) (eh : Hash) :
    ∀ trace : List Obs, ∀ x ∈ (wait_until_block_is_available n eh trace).2,
      x = wait_until_block_is_available_sleep_ms := by
  intro trace
  induction trace with
  | nil => simp [wait_until_block_is_available]
  | cons o rest ih =>
    intro x hx
    rw [wait_until_block_is_available] at hx
    rcases hcp : has_reached_finish_checkpoint o n with e | b <;> rw [hcp] at hx
    · simp at hx
      exact hx
    · cases b with
      | true =>
        dsimp only at hx
        rcases hfb : o.blockByNumber n with e | ob <;> rw [hfb] at hx
        · simp at hx
          exact hx
        · cases ob with
          | some blk =>
            dsimp only at hx
            by_cases hh : blk.hash = eh
            · rw [if_pos hh] at hx
              simp at hx
              exact hx
            · rw [if_neg hh] at hx
              simp at hx
              exact hx
          | none =>
            dsimp only at hx
            simp at hx
            exact hx
      | false =>
        dsimp only at hx
        rcases List.mem_cons.mp hx with rfl | hx2
        · rfl
        · exact ih x hx2

/-- `wait_until_block_is_available` keeps polling exactly while the Finish
checkpoint has not reached the number; the loop never gives up on its own. -/
theorem wait_until_hung_iff (n : BlockNumber) (eh : Hash) (trace : List Obs)
    (herr : ∀ o ∈ trace, ∀ e, has_reached_finish_checkpoint o n ≠ .error e) :
    (wait_until_block_is_available n eh trace).1 = .hung ↔
      ∀ o ∈ trace, has_reached_finish_checkpoint o n = .ok false := by
  induction trace with
  | nil => simp [wait_until_block_is_available]
  | cons o rest ih =>
    rw [wait_until_block_is_available]
    rcases hcp : has_reached_finish_checkpoint o n with e | b
    · exact absurd hcp (herr o (by simp) e)
    · cases b with
      | true =>
        dsimp only
        constructor
        · intro h
          rcases hfb : o.blockByNumber n with e | ob <;> rw [hfb] at h
          · simp at h
          · cases ob with
            | some blk =>
              dsimp only at h
              by_cases hh : blk.hash = eh
              · rw [if_pos hh] at h
                simp at h
              · rw [if_neg hh] at h
                simp at h
            | none =>
              dsimp only at h
              simp at h
        · intro h
          have hcontr := h o (by simp)
          rw [hcp] at hcontr
          simp at hcontr
      | false =>
        dsimp only
        rw [ih fun q hq e => herr q (by simp [hq]) e]
        constructor
        · intro h q hq
          rcases List.mem_cons.mp hq with rfl | hq2
          · exact hcp
          · exact h q hq2
        · intro h q hq
          exact h q (by simp [hq])

/-- An error result of `wait_until_block_is_available` always stems from a
provider call that errored in the trace. -/
theorem wait_until_err_from_provider (n : BlockNumber) (eh : Hash) :
    ∀ (trace : List Obs) (e : PErr),
      (wait_until_block_is_available n eh trace).1 = .err e →
      ∃ o ∈ trace, o.finishCheckpoint = .error e ∨ o.blockByNumber n = .error e := by
  intro trace
  induction trace with
  | nil =>
    intro e h
    simp [wait_until_block_is_available] at h
  | cons o rest ih =>
    intro e h
    rw [wait_until_block_is_available] at h
    rcases hcp : has_reached_finish_checkpoint o n with e' | b <;> rw [hcp] at h
    · dsimp only at h
      injection h with h1
      subst h1
      exact ⟨o, by simp, Or.inl (has_reached_finish_checkpoint_error hcp)⟩
    · cases b with
      | true =>
        dsimp only at h
        rcases hfb : o.blockByNumber n with e' | ob <;> rw [hfb] at h
        · dsimp only at h
          injection h with h1
          subst h1
          exact ⟨o, by simp, Or.inr hfb⟩
        · cases ob with
          | some blk =>
            dsimp only at h
            by_cases hh : blk.hash = eh
            · rw [if_pos hh] at h
              simp at h
            · rw [if_neg hh] at h
              simp at h
          | none =>
            dsimp only at h
            simp at h
      | false =>
        dsimp only at h
        rcases ih e h with ⟨q, hq, hqe⟩
        exact ⟨q, by simp [hq], hqe⟩

/-- Every sleep performed by `wait_unwind` is the fixed 10ms one. -/
theorem wait_unwind_sleeps (n : BlockNumber) :
    ∀ trace : List Obs, ∀ x ∈ (wait_unwind n trace).2, x = wait_unwind_sleep_ms := by
  intro trace
  induction trace with
  | nil => simp [wait_unwind]
  | cons o rest ih =>
    intro x hx
    rw [wait_unwind] at hx
    rcases ho : o.headersCheckpoint with e | ob <;> rw [ho] at hx
    · simp at hx
      exact hx
    · cases ob with
      | some checkpoint =>
        dsimp only at hx
        by_cases hn : checkpoint = n
        · rw [if_pos hn] at hx
          simp at hx
          exact hx
        · rw [if_neg hn] at hx
          dsimp only at hx
          rcases List.mem_cons.mp hx with rfl | hx2
          · rfl
          · exact ih x hx2
      | none =>
        dsimp only at hx
        rcases List.mem_cons.mp hx with rfl | hx2
        · rfl
        · exact ih x hx2

/-- `wait_unwind` keeps polling exactly while no observation reports a
Headers checkpoint exactly equal to the awaited number. -/
theorem wait_unwind_hung_iff (n : BlockNumber) (trace : List Obs)
    (herr : ∀ o ∈ trace, ∀ e, o.headersCheckpoint ≠ .error e) :
    (wait_unwind n trace).1 = .hung ↔
      ∀ o ∈ trace, o.headersCheckpoint ≠ .ok (some n) := by
  induction trace with
  | nil => simp [wait_unwind]
  | cons o rest ih =>
    rw [wait_unwind]
    rcases ho : o.headersCheckpoint with e | ob
    · exact absurd ho (herr o (by simp) e)
    · cases ob with
      | some checkpoint =>
        dsimp only
        by_cases hn : checkpoint = n
        · rw [if_pos hn]
          constructor
          · intro h
            simp at h
          · intro h
            subst hn
            exact absurd ho (h o (by simp))
        · rw [if_neg hn]
          dsimp only
          rw [ih fun q hq e => herr q (by simp [hq]) e]
          constructor
          · intro h q hq
            rcases List.mem_cons.mp hq with rfl | hq2
            · rw [ho]
              intro hcontr
              injection hcontr with h1
              injection h1 with h2
              exact hn h2
            · exact h q hq2
          · intro h q hq
            exact h q (by simp [hq])
      | none =>
        dsimp only
        rw [ih fun q hq e => herr q (by simp [hq]) e]
        constructor
        · intro h q hq
          rcases List.mem_cons.mp hq with rfl | hq2
          · rw [ho]
            intro hcontr
            cases hcontr
          · exact h q hq2
        · intro h q hq
          exact h q (by simp [hq])

/-- An error result of `wait_unwind` always stems from a Headers checkpoint
read that errored in the trace. -/
theorem wait_unwind_err_from_provider (n : BlockNumber) :
    ∀ (trace : List Obs) (e : PErr),
      (wait_unwind n trace).1 = .err e →
      ∃ o ∈ trace, o.headersCheckpoint = .error e := by
  intro trace
  induction trace with
  | nil =>
    intro e h
    simp [wait_unwind] at h
  | cons o rest ih =>
    intro e h
    rw [wait_unwind] at h
    rcases ho : o.headersCheckpoint with e' | ob <;> rw [ho] at h
    · dsimp only at h
      injection h with h1
      subst h1
      exact ⟨o, by simp, ho⟩
    · cases ob with
      | some checkpoint =>
        dsimp only at h
        by_cases hn : checkpoint = n
        · rw [if_pos hn] at h
          simp at h
        · rw [if_neg hn] at h
          dsimp only at h
          rcases ih e h with ⟨q, hq, hqe⟩
          exact ⟨q, by simp [hq], hqe⟩
      | none =>
        dsimp only at h
        rcases ih e h with ⟨q, hq, hqe⟩
        exact ⟨q, by simp [hq], hqe⟩

/-- C7: every polling loop retries unconditionally with a fixed sleep — 20ms
for `assert_new_block` and `wait_until_block_is_available`, 10ms for
`wait_unwind` — and has no iteration bound: over an arbitrarily long trace
each loop is still polling exactly while its awaited condition has not
appeared (latest block number equal to the target; Finish checkpoint at
least the target; Headers checkpoint exactly the target), and an error
result only ever stems from an errored provider call, never from elapsed
time. -/
theorem c7_polling_loops_fixed_sleep_unbounded :
    (assert_new_block_sleep_ms = 20 ∧ wait_until_block_is_available_sleep_ms = 20 ∧
      wait_unwind_sleep_ms = 10) ∧
    (∀ (bh : Hash) (bn : BlockNumber) (trace : List Obs),
      ∀ x ∈ (assert_new_block bh bn trace).2, x = 20) ∧
    (∀ (n : BlockNumber) (eh : Hash) (trace : List Obs),
      ∀ x ∈ (wait_until_block_is_available n eh trace).2, x = 20) ∧
    (∀ (n : BlockNumber) (trace : List Obs),
      ∀ x ∈ (wait_unwind n trace).2, x = 10) ∧
    (∀ (bh : Hash) (bn : BlockNumber) (trace : List Obs),
      (∀ o ∈ trace, ∀ e, o.latestBlock ≠ .error e) →
      ((assert_new_block bh bn trace).1 = .hung ↔
        ∀ o ∈ trace, ∀ b, o.latestBlock = .ok (some b) → b.number ≠ bn)) ∧
    (∀ (n : BlockNumber) (eh : Hash) (trace : List Obs),
      (∀ o ∈ trace, ∀ e, has_reached_finish_checkpoint o n ≠ .error e) →
      ((wait_until_block_is_available n eh trace).1 = .hung ↔
        ∀ o ∈ trace, has_reached_finish_checkpoint o n = .ok false)) ∧
    (∀ (n : BlockNumber) (trace : List Obs),
      (∀ o ∈ trace, ∀ e, o.headersCheckpoint ≠ .error e) →
      ((wait_unwind n trace).1 = .hung ↔
        ∀ o ∈ trace, o.headersCheckpoint ≠ .ok (some n))) ∧
    (∀ (bh : Hash) (bn : BlockNumber) (trace : List Obs) (e : PErr),
      (assert_new_block bh bn trace).1 = .err e →
      ∃ o ∈ trace, o.latestBlock = .error e) ∧
    (∀ (n : BlockNumber) (eh : Hash) (trace : List Obs) (e : PErr),
      (wait_until_block_is_available n eh trace).1 = .err e →
      ∃ o ∈ trace, o.finishCheckpoint = .error e ∨ o.blockByNumber n = .error e) ∧
    (∀ (n : BlockNumber) (trace : List Obs) (e : PErr),
      (wait_unwind n trace).1 = .err e →
      ∃ o ∈ trace, o.headersCheckpoint = .error e) :=
  ⟨⟨rfl, rfl, rfl⟩,
   fun bh bn trace => assert_new_block_sleeps bh bn trace,
   fun n eh trace => wait_until_sleeps n eh trace,
   fun n trace => wait_unwind_sleeps n trace,
   fun bh bn trace herr => assert_new_block_hung_iff bh bn trace herr,
   fun n eh trace herr => wait_until_hung_iff n eh trace herr,
   fun n trace herr => wait_unwind_hung_iff n trace herr,
   fun bh bn trace e h => assert_new_block_err_from_provider bh bn trace e h,
   fun n eh trace e h => wait_until_err_from_provider n eh trace e h,
   fun n trace e h => wait_unwind_err_from_provider n trace e h⟩

/-- Witness for C7 at concrete inputs. -/
theorem c7_polling_loops_fixed_sleep_unbounded_witness :
    (∀ x ∈ (assert_new_block 1 2
      [⟨.error "boom", .ok none, .ok none, fun _ => .ok none⟩]).2, x = 20) ∧
    (∀ x ∈ (wait_until_block_is_available 3 7
      [⟨.ok none, .error "boom", .ok none, fun _ => .ok none⟩]).2, x = 20) ∧
    (∀ x ∈ (wait_unwind 3
      [⟨.ok none, .ok none, .error "boom", fun _ => .ok none⟩]).2, x = 10) ∧
    ((assert_new_block 1 2
      [⟨.ok none, .ok none, .ok none, fun _ => .ok none⟩]).1 = .hung ↔
      ∀ o ∈ [(⟨.ok none, .ok none, .ok none, fun _ => .ok none⟩ : Obs)],
        ∀ b, o.latestBlock = .ok (some b) → b.number ≠ 2) ∧
    ((wait_until_block_is_available 3 7
      [⟨.ok none, .ok none, .ok none, fun _ => .ok none⟩]).1 = .hung ↔
      ∀ o ∈ [(⟨.ok none, .ok none, .ok none, fun _ => .ok none⟩ : Obs)],
        has_reached_finish_checkpoint o 3 = .ok false) ∧
    ((wait_unwind 3
      [⟨.ok none, .ok none, .ok none, fun _ => .ok none⟩]).1 = .hung ↔
      ∀ o ∈ [(⟨.ok none, .ok none, .ok none, fun _ => .ok none⟩ : Obs)],
        o.headersCheckpoint ≠ .ok (some 3)) ∧
    (∃ o ∈ [(⟨.error "boom", .ok none, .ok none, fun _ => .ok none⟩ : Obs)],
      o.latestBlock = .error "boom") ∧
    (∃ o ∈ [(⟨.ok none, .error "boom", .ok none, fun _ => .ok none⟩ : Obs)],
      o.finishCheckpoint = .error "boom" ∨ o.blockByNumber 3 = .error "boom") ∧
    (∃ o ∈ [(⟨.ok none, .ok none, .error "boom", fun _ => .ok none⟩ : Obs)],
      o.headersCheckpoint = .error "boom") :=
  ⟨c7_polling_loops_fixed_sleep_unbounded.2.1 1 2
      [⟨.error "boom", .ok none, .ok none, fun _ => .ok none⟩],
   c7_polling_loops_fixed_sleep_unbounded.2.2.1 3 7
      [⟨.ok none, .error "boom", .ok none, fun _ => .ok none⟩],
   c7_polling_loops_fixed_sleep_unbounded.2.2.2.1 3
      [⟨.ok none, .ok none, .error "boom", fun _ => .ok none⟩],
   c7_polling_loops_fixed_sleep_unbounded.2.2.2.2.1 1 2
      [⟨.ok none, .ok none, .ok none, fun _ => .ok none⟩]
      (by intro o ho e; simp at ho; subst ho; simp),
   c7_polling_loops_fixed_sleep_unbounded.2.2.2.2.2.1 3 7
      [⟨.ok none, .ok none, .ok none, fun _ => .ok none⟩]
      (by intro o ho e; simp at ho; subst ho; simp [has_reached_finish_checkpoint]),
   c7_polling_loops_fixed_sleep_unbounded.2.2.2.2.2.2.1 3
      [⟨.ok none, .ok none, .ok none, fun _ => .ok none⟩]
      (by intro o ho e; simp at ho; subst ho; simp),
   c7_polling_loops_fixed_sleep_unbounded.2.2.2.2.2.2.2.1 1 2
      [⟨.error "boom", .ok none, .ok none, fun _ => .ok none⟩] "boom" rfl,
   c7_polling_loops_fixed_sleep_unbounded.2.2.2.2.2.2.2.2.1 3 7
      [⟨.ok none, .error "boom", .ok none, fun _ => .ok none⟩] "boom" rfl,
   c7_polling_loops_fixed_sleep_unbounded.2.2.2.2.2.2.2.2.2 3
      [⟨.ok none, .ok none, .error "boom", fun _ => .ok none⟩] "boom" rfl⟩

/-- A successful submit returns the payload's block hash, and the engine
really answered with the expected status. -/
theorem submit_payload_ok {payload : BuiltPayload} {vh : List Hash}
    {expected : PayloadStatus} {resp : Except PErr PayloadStatus} {bh : Hash}
    (h : submit_payload payload vh expected resp = .ok bh) :
    bh = payload.blockHash ∧ resp = .ok expected := by
  unfold submit_payload at h
  rcases resp with e | st
  · simp at h
  · dsimp only at h
    by_cases hst : st = expected
    · rw [if_pos hst] at h
      injection h with h1
      exact ⟨h1.symm, by rw [hst]⟩
    · rw [if_neg hst] at h
      simp at h

/-- A successful confirmation poll saw an observation whose latest block is
exactly the awaited one. -/
theorem assert_new_block_ok_obs (bh : Hash) (bn : BlockNumber) :
    ∀ trace : List Obs, (assert_new_block bh bn trace).1 = .ok () →
      ∃ o ∈ trace, o.latestBlock = .ok (some ⟨bn, bh⟩) := by
  intro trace
  induction trace with
  | nil =>
    intro h
    simp [assert_new_block] at h
  | cons o rest ih =>
    intro h
    rw [assert_new_block] at h
    rcases ho : o.latestBlock with e | ob <;> rw [ho] at h
    · simp at h
    · cases ob with
      | none =>
        dsimp only at h
        rcases ih h with ⟨q, hq, hqe⟩
        exact ⟨q, by simp [hq], hqe⟩
      | some b =>
        dsimp only at h
        by_cases hn : b.number = bn
        · rw [if_pos hn] at h
          by_cases hh : b.hash = bh
          · rw [if_pos hh] at h
            refine ⟨o, by simp, ?_⟩
            rw [ho]
            cases b
            cases hn
            cases hh
            rfl
          · rw [if_neg hh] at h
            simp at h
        · rw [if_neg hn] at h
          dsimp only at h
          rcases ih h with ⟨q, hq, hqe⟩
          exact ⟨q, by simp [hq], hqe⟩

/-- C1: a successful `advance(versioned_hashes, g)` runs new_payload, then
submit_payload with expected status Valid (and the engine answered Valid),
then update_forkchoice(h, h) on the submitted block hash, then polls
assert_new_block until the node's latest block matches; the returned hash is
the built payload block's hash, and after the call the node's block at the
returned number (on the observation that satisfied the poll) has exactly the
returned hash. -/
theorem c1_advance_contract (versioned_hashes : List Hash) (env : AdvanceEnv)
    (p : BuiltPayload) (a : Attr) (h : Hash)
    (hok : (advance versioned_hashes env).1 = .ok (p, a, h))
    (hwf : ∀ o ∈ env.pollTrace, ObsWellFormed o) :
    h = p.blockHash ∧
    env.submitStatusResp = .ok .valid ∧
    (advance versioned_hashes env).2 =
      [.evNewPayload, .evSubmitPayload versioned_hashes .valid,
       .evForkchoiceUpdated h h, .evAssertNewBlock h p.blockNumber] ∧
    (assert_new_block p.blockHash p.blockNumber env.pollTrace).1 = .ok () ∧
    ∃ o ∈ env.pollTrace,
      o.latestBlock = .ok (some ⟨p.blockNumber, h⟩) ∧
      o.blockByNumber p.blockNumber = .ok (some ⟨p.blockNumber, h⟩) := by
  obtain ⟨npr, ssr, fcr, trace⟩ := env
  rcases npr with e | pa
  · exact absurd hok (by simp [advance])
  · obtain ⟨payload, eth_attr⟩ := pa
    rcases ssr with e | st
    · exact absurd hok (by simp [advance, submit_payload])
    · by_cases hst : st = PayloadStatus.valid
      · subst hst
        rcases fcr with e | u
        · exact absurd hok (by simp [advance, submit_payload, update_forkchoice])
        · rcases hanb : (assert_new_block payload.blockHash payload.blockNumber trace).1
            with u2 | e | m | u3
          · cases u2
            simp [advance, submit_payload, update_forkchoice, hanb] at hok
            obtain ⟨h1, h2, h3⟩ := hok
            subst h1
            subst h2
            subst h3
            refine ⟨rfl, rfl, ?_, hanb, ?_⟩
            · simp [advance, submit_payload, update_forkchoice, hanb]
            · rcases assert_new_block_ok_obs payload.blockHash payload.blockNumber
                trace hanb with ⟨o, ho, hlatest⟩
              exact ⟨o, ho, hlatest,
                hwf o ho ⟨payload.blockNumber, payload.blockHash⟩ hlatest⟩
          · exact absurd hok (by simp [advance, submit_payload, update_forkchoice, hanb])
          · exact absurd hok (by simp [advance, submit_payload, update_forkchoice, hanb])
          · exact absurd hok (by simp [advance, submit_payload, update_forkchoice, hanb])
      · exact absurd hok (by simp [advance, submit_payload, hst])

/-- Witness for C1 at a concrete successful environment. -/
theorem c1_advance_contract_witness :
    (42 : Hash) = (⟨1, 42⟩ : BuiltPayload).blockHash ∧
    (Except.ok PayloadStatus.valid : Except PErr PayloadStatus) = .ok .valid ∧
    (advance []
      ⟨.ok (⟨1, 42⟩, 0), .ok .valid, .ok (),
        [⟨.ok (some ⟨1, 42⟩), .ok none, .ok none, fun _ => .ok (some ⟨1, 42⟩)⟩]⟩).2 =
      [.evNewPayload, .evSubmitPayload [] .valid,
       .evForkchoiceUpdated 42 42, .evAssertNewBlock 42 1] ∧
    (assert_new_block 42 1
      [⟨.ok (some ⟨1, 42⟩), .ok none, .ok none, fun _ => .ok (some ⟨1, 42⟩)⟩]).1 = .ok () ∧
    ∃ o ∈ [(⟨.ok (some ⟨1, 42⟩), .ok none, .ok none,
        fun _ => .ok (some ⟨1, 42⟩)⟩ : Obs)],
      o.latestBlock = .ok (some ⟨1, 42⟩) ∧
      o.blockByNumber 1 = .ok (some ⟨1, 42⟩) :=
  c1_advance_contract []
    ⟨.ok (⟨1, 42⟩, 0), .ok .valid, .ok (),
      [⟨.ok (some ⟨1, 42⟩), .ok none, .ok none, fun _ => .ok (some ⟨1, 42⟩)⟩]⟩
    ⟨1, 42⟩ 0 42 rfl
    (by
      intro o ho b hb
      simp at ho
      subst ho
      simp at hb
      subst hb
      rfl)

/-- The event log of one successful `advance`: the four engine steps in
order, on the payload block's own hash. -/
theorem advance_ok_log (vh : List Hash) (env : AdvanceEnv) (p : BuiltPayload)
    (a : Attr) (h : Hash) (hok : (advance vh env).1 = .ok (p, a, h)) :
    h = p.blockHash ∧
    (advance vh env).2 =
      [.evNewPayload, .evSubmitPayload vh .valid,
       .evForkchoiceUpdated p.blockHash p.blockHash,
       .evAssertNewBlock p.blockHash p.blockNumber] := by
  obtain ⟨npr, ssr, fcr, trace⟩ := env
  rcases npr with e | pa
  · exact absurd hok (by simp [advance])
  · obtain ⟨payload, eth_attr⟩ := pa
    rcases ssr with e | st
    · exact absurd hok (by simp [advance, submit_payload])
    · by_cases hst : st = PayloadStatus.valid
      · subst hst
        rcases fcr with e | u
        · exact absurd hok (by simp [advance, submit_payload, update_forkchoice])
        · rcases hanb : (assert_new_block payload.blockHash payload.blockNumber trace).1
            with u2 | e | m | u3
          · cases u2
            simp [advance, submit_payload, update_forkchoice, hanb] at hok
            obtain ⟨h1, h2, h3⟩ := hok
            subst h1
            subst h2
            subst h3
            exact ⟨rfl, by simp [advance, submit_payload, update_forkchoice, hanb]⟩
          · exact absurd hok (by simp [advance, submit_payload, update_forkchoice, hanb])
          · exact absurd hok (by simp [advance, submit_payload, update_forkchoice, hanb])
          · exact absurd hok (by simp [advance, submit_payload, update_forkchoice, hanb])
      · exact absurd hok (by simp [advance, submit_payload, hst])

/-- Characterization of a successful advancement loop: it consumed exactly
`n` environments, returned their pairs in call order, concatenated their
event logs and every iteration succeeded. -/
theorem advanceLoop_ok :
    ∀ (n : Nat) (envs : List AdvanceEnv) (chain : List (BuiltPayload × Attr)),
      (advanceLoop n envs).1 = .ok chain →
      chain = (envs.take n).map advResultPair ∧
      chain.length = n ∧
      (advanceLoop n envs).2 = (envs.take n).flatMap (fun env => (advance [] env).2) ∧
      ∀ env ∈ envs.take n, ∃ pa, (advance [] env).1 = .ok pa := by
  intro n
  induction n with
  | zero =>
    intro envs chain h
    simp [advanceLoop] at h
    subst h
    simp [advanceLoop]
  | succ n ih =>
    intro envs chain h
    cases envs with
    | nil => simp [advanceLoop] at h
    | cons env envs =>
      rcases hadv : advance [] env with ⟨r, log⟩
      rcases r with ⟨payload, eth_attr, hh⟩ | e | m | u
      · rcases hloop : advanceLoop n envs with ⟨r2, log2⟩
        rcases r2 with chain2 | e | m | u
        · simp only [advanceLoop, hadv, hloop] at h
          simp at h
          subst h
          have hihok : (advanceLoop n envs).1 = .ok chain2 := by rw [hloop]
          obtain ⟨ih1, ih2, ih3, ih4⟩ := ih envs chain2 hihok
          have hpair : advResultPair env = (payload, eth_attr) := by
            simp [advResultPair, hadv]
          refine ⟨?_, ?_, ?_, ?_⟩
          · simp [hpair, ih1]
          · simp [ih2]
          · rw [hloop] at ih3
            simp only [advanceLoop, hadv, hloop]
            simp [hadv]
            exact ih3
          · intro q hq
            rcases List.mem_cons.mp (by simpa using hq) with rfl | hq2
            · exact ⟨(payload, eth_attr, hh), by rw [hadv]⟩
            · exact ih4 q hq2
        · simp [advanceLoop, hadv, hloop] at h
        · simp [advanceLoop, hadv, hloop] at h
        · simp [advanceLoop, hadv, hloop] at h
      · simp [advanceLoop, hadv] at h
      · simp [advanceLoop, hadv] at h
      · simp [advanceLoop, hadv] at h

/-- C9: `advance_many(count, g)` first takes the context's transaction
stream and attaches it to the node's intake as a background task, then runs
`advance` exactly `count` times with empty versioned hashes, returning the
(payload, attributes) pairs in call order; afterwards `tx_stream` is `none`,
and any later `inject_pending_stream` or `advance_many` on a context without
a stream panics with "TransactionStream is not set". -/
theorem c9_advance_many_contract (c : CtxState) (s : StreamHandle)
    (len : Nat) (envs : List AdvanceEnv) (chain : List (BuiltPayload × Attr))
    (hs : c.tx_stream = some s)
    (hloop : (advanceLoop len envs).1 = .ok chain) :
    (advance_many c len envs).1 = .ok (⟨none, c.injected ++ [s]⟩, chain) ∧
    chain = (envs.take len).map advResultPair ∧
    chain.length = len ∧
    (advance_many c len envs).2 =
      (envs.take len).flatMap (fun env => (advance [] env).2) ∧
    (∀ env ∈ envs.take len, ∃ p a hh,
      (advance [] env).1 = .ok (p, a, hh) ∧
      (advance [] env).2 =
        [.evNewPayload, .evSubmitPayload [] .valid,
         .evForkchoiceUpdated p.blockHash p.blockHash,
         .evAssertNewBlock p.blockHash p.blockNumber]) ∧
    (∀ (inj : List StreamHandle) (k : Nat) (envs2 : List AdvanceEnv),
      inject_pending_stream ⟨none, inj⟩ = .fatal "TransactionStream is not set" ∧
      (advance_many ⟨none, inj⟩ k envs2).1 = .fatal "TransactionStream is not set") := by
  obtain ⟨ch1, ch2, ch3, ch4⟩ := advanceLoop_ok len envs chain hloop
  rcases hl2 : advanceLoop len envs with ⟨r, log⟩
  rw [hl2] at hloop
  dsimp only at hloop
  subst hloop
  have hinj : inject_pending_stream c = .ok ⟨none, c.injected ++ [s]⟩ := by
    unfold inject_pending_stream
    rw [hs]
  refine ⟨?_, ch1, ch2, ?_, ?_, ?_⟩
  · simp [advance_many, hinj, hl2]
  · rw [hl2] at ch3
    simp [advance_many, hinj, hl2]
    exact ch3
  · intro env henv
    rcases ch4 env henv with ⟨⟨p, a, hh⟩, hok⟩
    rcases advance_ok_log [] env p a hh hok with ⟨-, hlog⟩
    exact ⟨p, a, hh, hok, hlog⟩
  · intro inj k envs2
    exact ⟨rfl, by simp [advance_many, inject_pending_stream]⟩

/-- Witness for C9 at a concrete context and a single successful advance. -/
theorem c9_advance_many_contract_witness :
    (advance_many ⟨some 0, []⟩ 1
      [⟨.ok (⟨1, 42⟩, 0), .ok .valid, .ok (),
        [⟨.ok (some ⟨1, 42⟩), .ok none, .ok none, fun _ => .ok (some ⟨1, 42⟩)⟩]⟩]).1 =
      .ok (⟨none, [0]⟩, [(⟨1, 42⟩, 0)]) ∧
    ([(⟨1, 42⟩, 0)] : List (BuiltPayload × Attr)) =
      ([(⟨.ok (⟨1, 42⟩, 0), .ok .valid, .ok (),
        [⟨.ok (some ⟨1, 42⟩), .ok none, .ok none,
          fun _ => .ok (some ⟨1, 42⟩)⟩]⟩ : AdvanceEnv)].take 1).map advResultPair ∧
    ([(⟨1, 42⟩, 0)] : List (BuiltPayload × Attr)).length = 1 ∧
    (advance_many ⟨some 0, []⟩ 1
      [⟨.ok (⟨1, 42⟩, 0), .ok .valid, .ok (),
        [⟨.ok (some ⟨1, 42⟩), .ok none, .ok none, fun _ => .ok (some ⟨1, 42⟩)⟩]⟩]).2 =
      ([(⟨.ok (⟨1, 42⟩, 0), .ok .valid, .ok (),
        [⟨.ok (some ⟨1, 42⟩), .ok none, .ok none,
          fun _ => .ok (some ⟨1, 42⟩)⟩]⟩ : AdvanceEnv)].take 1).flatMap
        (fun env => (advance [] env).2) ∧
    (∀ env ∈ ([(⟨.ok (⟨1, 42⟩, 0), .ok .valid, .ok (),
        [⟨.ok (some ⟨1, 42⟩), .ok none, .ok none,
          fun _ => .ok (some ⟨1, 42⟩)⟩]⟩ : AdvanceEnv)].take 1),
      ∃ p a hh, (advance [] env).1 = .ok (p, a, hh) ∧
        (advance [] env).2 =
          [.evNewPayload, .evSubmitPayload [] .valid,
           .evForkchoiceUpdated p.blockHash p.blockHash,
           .evAssertNewBlock p.blockHash p.blockNumber]) ∧
    (∀ (inj : List StreamHandle) (k : Nat) (envs2 : List AdvanceEnv),
      inject_pending_stream ⟨none, inj⟩ = .fatal "TransactionStream is not set" ∧
      (advance_many ⟨none, inj⟩ k envs2).1 =
        .fatal "TransactionStream is not set") :=
  c9_advance_many_contract ⟨some 0, []⟩ 0 1
    [⟨.ok (⟨1, 42⟩, 0), .ok .valid, .ok (),
      [⟨.ok (some ⟨1, 42⟩), .ok none, .ok none, fun _ => .ok (some ⟨1, 42⟩)⟩]⟩]
    [(⟨1, 42⟩, 0)] rfl rfl

end Node

namespace Topo

/-- Closed form of the build loop. -/
theorem buildGo_spec (capacity : Nat) :
    ∀ (remaining node_index : Nat),
      buildGo capacity node_index remaining =
        ((List.range' node_index remaining).map gen,
         (List.range' node_index remaining).flatMap (connect_nodes capacity)) := by
  intro remaining
  induction remaining with
  | zero =>
    intro i
    simp [buildGo]
  | succ r ih =>
    intro i
    rw [buildGo, ih (i + 1), List.range'_succ]
    simp

/-- Flattening `connect_nodes` over the first `k` indices of a `c`-capacity
build yields the chain edges, plus the ring edge exactly when the build is
complete (`k = c`) and has more than two nodes. -/
theorem range_flatMap_connect (c : Nat) :
    ∀ k, k ≤ c →
      (List.range k).flatMap (connect_nodes c) =
        ((List.range (k - 1)).map fun i => (i, i + 1)) ++
        (if k = c ∧ c > 2 then [(c - 1, 0)] else []) := by
  intro k
  induction k with
  | zero =>
    intro _
    have hf : ¬(0 = c ∧ c > 2) := by omega
    simp [hf]
  | succ k ih =>
    intro hk
    rw [List.range_succ, List.flatMap_append, ih (by omega)]
    have hkc : ¬(k = c ∧ c > 2) := by omega
    rw [if_neg hkc, List.append_nil]
    simp only [List.flatMap_cons, List.flatMap_nil, List.append_nil]
    rcases Nat.eq_zero_or_pos k with rfl | hk0
    · have h1 : ¬((0 : Nat) + 1 = c ∧ c > 2 ∧ (0 : Nat) > 0) := by omega
      have h2 : ¬((0 : Nat) + 1 = c ∧ c > 2) := by omega
      simp [connect_nodes, h1, h2]
    · obtain ⟨j, rfl⟩ : ∃ j, k = j + 1 := ⟨k - 1, by omega⟩
      unfold connect_nodes
      rw [if_pos (by omega : j + 1 > 0)]
      by_cases hring : j + 1 + 1 = c ∧ c > 2
      · rw [if_pos ⟨hring.1, hring.2, by omega⟩, if_pos hring]
        have hc : c - 1 = j + 1 := by omega
        simp [List.range_succ, hc]
      · rw [if_neg (by omega), if_neg hring]
        simp [List.range_succ]

/-- C4: `build(n)` creates exactly `n` node contexts, all with discovery
disabled; node `i` is connected to node `i-1` at its creation for every
`0 < i < n`; and exactly when `n > 2` one additional edge from the last
node back to node 0 closes the ring (it is the final edge, added while
processing the last node, when all `n` nodes exist); no ring edge exists
for `n ≤ 2`. -/
theorem c4_build_chain_ring (n : Nat) :
    (build n).1 = (List.range n).map gen ∧
    (build n).1.length = n ∧
    (∀ c ∈ (build n).1, c.discoveryDisabled = true) ∧
    (build n).2 =
      ((List.range (n - 1)).map fun i => (i, i + 1)) ++
      (if n > 2 then [(n - 1, 0)] else []) ∧
    (∀ i, 0 < i → i < n → ((i - 1, i) : Edge) ∈ (build n).2) ∧
    (((n - 1, 0) : Edge) ∈ (build n).2 ↔ 2 < n) := by
  have hb : build n =
      ((List.range n).map gen, (List.range n).flatMap (connect_nodes n)) := by
    unfold build
    rw [buildGo_spec, ← List.range_eq_range']
  have hedges : (build n).2 =
      ((List.range (n - 1)).map fun i => (i, i + 1)) ++
      (if n > 2 then [(n - 1, 0)] else []) := by
    rw [hb]
    dsimp only
    rw [range_flatMap_connect n n le_rfl]
    by_cases h2 : n > 2
    · rw [if_pos ⟨rfl, h2⟩, if_pos h2]
    · rw [if_neg (by omega), if_neg h2]
  refine ⟨by rw [hb], ?_, ?_, hedges, ?_, ?_⟩
  · rw [hb]
    simp
  · intro c hc
    rw [hb] at hc
    simp only [List.mem_map] at hc
    obtain ⟨i, -, rfl⟩ := hc
    rfl
  · intro i h0 hn
    rw [hedges]
    refine List.mem_append_left _ ?_
    refine List.mem_map.mpr ⟨i - 1, ?_, ?_⟩
    · rw [List.mem_range]
      omega
    · have : i - 1 + 1 = i := by omega
      rw [this]
  · rw [hedges]
    constructor
    · intro hmem
      by_contra h2
      rw [if_neg h2, List.append_nil] at hmem
      rcases List.mem_map.mp hmem with ⟨j, hj, hje⟩
      have hsnd : j + 1 = 0 := congrArg Prod.snd hje
      omega
    · intro h2
      rw [if_pos h2]
      exact List.mem_append_right _ (by simp)

/-- Witness for C4 at concrete peer counts. -/
theorem c4_build_chain_ring_witness :
    (build 4).1.length = 4 ∧
    (∀ c ∈ (build 4).1, c.discoveryDisabled = true) ∧
    ((2, 3) : Edge) ∈ (build 4).2 ∧
    (((3, 0) : Edge) ∈ (build 4).2 ↔ 2 < 4) ∧
    (((1, 0) : Edge) ∈ (build 2).2 ↔ 2 < 2) :=
  ⟨(c4_build_chain_ring 4).2.1,
   (c4_build_chain_ring 4).2.2.1,
   (c4_build_chain_ring 4).2.2.2.2.1 3 (by decide) (by decide),
   (c4_build_chain_ring 4).2.2.2.2.2,
   (c4_build_chain_ring 2).2.2.2.2.2⟩

end Topo

namespace TxCtx

/-- Incrementing through a live cell bumps the value read by one. -/
theorem readNonce_inc (c : TransactionTestContext) (h : Heap)
    (hc : c.nonce < h.length) :
    readNonce c (inc_nonce c h) = readNonce c h + 1 := by
  unfold readNonce inc_nonce
  rw [List.getD_eq_getElem?_getD, List.getElem?_set_self (by simpa using hc)]
  rfl

/-- Incrementing preserves the heap layout. -/
theorem inc_nonce_length (c : TransactionTestContext) (h : Heap) :
    (inc_nonce c h).length = h.length :=
  List.length_set h c.nonce (h.getD c.nonce 0 + 1)

/-- The nonces emitted by `N` sequential sign-and-encode calls (each through
a fresh clone) count up one by one from the current counter value. -/
theorem signN_nonces (c : TransactionTestContext) :
    ∀ (N : Nat) (h : Heap), c.nonce < h.length →
      (signN c N h).1 = (List.range N).map (fun k => readNonce c h + k) := by
  intro N
  induction N with
  | zero =>
    intro h _
    simp [signN]
  | succ n ih =>
    intro h hc
    rw [signN]
    have hlen : c.nonce < (inc_nonce c h).length := by
      rw [inc_nonce_length]
      exact hc
    have hrec := ih (inc_nonce c h) hlen
    simp only [eip1559, sign_and_encode, TransactionTestContext.clone] at hrec ⊢
    rw [hrec, readNonce_inc c h hc, List.range_succ_eq_map]
    simp only [List.map_cons, List.map_map, Nat.add_zero]
    refine congrArg (fun l => readNonce c h :: l) ?_
    apply List.map_congr_left
    intro k _
    simp [Function.comp]
    omega

/-- C5: a wallet signing N sequential transactions emits nonces 0, 1, ...,
N-1 in emission order: the counter starts at 0 on a fresh context, every
sign-and-encode increments it by exactly one, and the property survives
producing each transaction through a fresh clone of the wallet because
cloning shares the same mutex-guarded counter (the Arc copies the cell). -/
theorem c5_sequential_nonces :
    (∀ c : TransactionTestContext, c.clone.nonce = c.nonce) ∧
    (∀ (c : TransactionTestContext) (h : Heap), c.nonce < h.length →
      readNonce c (inc_nonce c h) = readNonce c h + 1) ∧
    (∀ (chain_id : Nat) (h0 : Heap) (N : Nat),
      (signN (TransactionTestContext.new chain_id h0).1 N
        (TransactionTestContext.new chain_id h0).2).1 = List.range N) := by
  refine ⟨fun c => rfl, readNonce_inc, ?_⟩
  intro chain_id h0 N
  have hc : (TransactionTestContext.new chain_id h0).1.nonce <
      (TransactionTestContext.new chain_id h0).2.length := by
    simp [TransactionTestContext.new]
  rw [signN_nonces _ N _ hc]
  have hread : readNonce (TransactionTestContext.new chain_id h0).1
      (TransactionTestContext.new chain_id h0).2 = 0 := by
    unfold TransactionTestContext.new readNonce
    dsimp only
    rw [List.getD_eq_getElem?_getD, List.getElem?_append_right le_rfl]
    simp
  rw [hread]
  simp

/-- Witness for C5 at concrete inputs. -/
theorem c5_sequential_nonces_witness :
    (TransactionTestContext.clone ⟨1, 0⟩).nonce =
      (⟨1, 0⟩ : TransactionTestContext).nonce ∧
    readNonce ⟨1, 0⟩ (inc_nonce ⟨1, 0⟩ [5]) = readNonce ⟨1, 0⟩ [5] + 1 ∧
    (signN (TransactionTestContext.new 1 []).1 3
      (TransactionTestContext.new 1 []).2).1 = List.range 3 :=
  ⟨c5_sequential_nonces.1 ⟨1, 0⟩,
   c5_sequential_nonces.2.1 ⟨1, 0⟩ [5] (by decide),
   c5_sequential_nonces.2.2 1 [] 3⟩

end TxCtx

namespace Rpc

/-- The injection task starts the items' sends in exactly the stream's
emission order. -/
theorem for_each_send_starts (send : RawTx → Except PErr TxHash) :
    ∀ txs : List RawTx, startsOf (for_each_send send txs) = txs := by
  intro txs
  induction txs with
  | nil => simp [for_each_send, startsOf]
  | cons raw_tx rest ih =>
    rw [for_each_send]
    rcases hst : send raw_tx with e | v <;>
      simp [startsOf, List.filterMap_append] at ih ⊢ <;> exact ih

theorem startCount_append (l1 l2 : List SendEv) :
    startCount (l1 ++ l2) = startCount l1 + startCount l2 := by
  simp [startCount]

theorem finishCount_append (l1 l2 : List SendEv) :
    finishCount (l1 ++ l2) = finishCount l1 + finishCount l2 := by
  simp [finishCount]

/-- One item's block of events: the send is started and then awaited to
completion (with a possible error trace) before anything else happens. -/
theorem for_each_send_cons (send : RawTx → Except PErr TxHash)
    (raw_tx : RawTx) (rest : List RawTx) :
    for_each_send send (raw_tx :: rest) =
      (SendEv.start raw_tx :: SendEv.finish raw_tx (send raw_tx) ::
        (match send raw_tx with
         | .error e => [SendEv.logged raw_tx e]
         | .ok _ => [])) ++ for_each_send send rest := by
  rw [for_each_send]
  simp

/-- In every prefix of the injection task's log, completed sends never
exceed started ones, and at most one started send is incomplete: sends
neither overlap nor begin before the previous one finished. -/
theorem for_each_send_prefix_bound (send : RawTx → Except PErr TxHash) :
    ∀ (txs : List RawTx) (pre : List SendEv),
      pre <+: for_each_send send txs →
      finishCount pre ≤ startCount pre ∧ startCount pre ≤ finishCount pre + 1 := by
  intro txs
  induction txs with
  | nil =>
    intro pre h
    rw [for_each_send, List.prefix_nil] at h
    subst h
    simp [startCount, finishCount]
  | cons raw_tx rest ih =>
    intro pre h
    rw [for_each_send_cons] at h
    rcases TxStream.prefix_append_cases h with h1 | ⟨q, rfl, hq⟩
    · rcases hst : send raw_tx with e | v <;> rw [hst] at h1
      · rcases TxStream.prefix_cons_cases h1 with rfl | ⟨q1, rfl, hq1⟩
        · simp [startCount, finishCount]
        · rcases TxStream.prefix_cons_cases hq1 with rfl | ⟨q2, rfl, hq2⟩
          · simp [startCount, finishCount]
          · rcases TxStream.prefix_cons_cases hq2 with rfl | ⟨q3, rfl, hq3⟩
            · simp [startCount, finishCount]
            · rw [List.prefix_nil] at hq3
              subst hq3
              simp [startCount, finishCount]
      · rcases TxStream.prefix_cons_cases h1 with rfl | ⟨q1, rfl, hq1⟩
        · simp [startCount, finishCount]
        · rcases TxStream.prefix_cons_cases hq1 with rfl | ⟨q2, rfl, hq2⟩
          · simp [startCount, finishCount]
          · rw [List.prefix_nil] at hq2
            subst hq2
            simp [startCount, finishCount]
    · have hblock : startCount (SendEv.start raw_tx ::
          SendEv.finish raw_tx (send raw_tx) ::
          (match send raw_tx with
           | .error e => [SendEv.logged raw_tx e]
           | .ok _ => [])) = 1 ∧
        finishCount (SendEv.start raw_tx ::
          SendEv.finish raw_tx (send raw_tx) ::
          (match send raw_tx with
           | .error e => [SendEv.logged raw_tx e]
           | .ok _ => [])) = 1 := by
        rcases hst : send raw_tx with e | v <;> simp [startCount, finishCount]
      obtain ⟨hb1, hb2⟩ := hblock
      obtain ⟨ih1, ih2⟩ := ih q hq
      rw [startCount_append, finishCount_append, hb1, hb2]
      omega

/-- C8: transactions from one stream are injected in emission order by the
background task: each item's `send_raw_transaction` is started and awaited
to completion (logging any error) before the next item is taken, so the
sends never overlap and never reorder relative to the stream's emission
order. -/
theorem c8_inject_stream_sequential :
    (∀ (send : RawTx → Except PErr TxHash) (txs : List RawTx),
      (inject_stream send txs).2 = txs.flatMap fun raw_tx =>
        SendEv.start raw_tx :: SendEv.finish raw_tx (send raw_tx) ::
        (match send raw_tx with
         | .error e => [SendEv.logged raw_tx e]
         | .ok _ => [])) ∧
    (∀ (send : RawTx → Except PErr TxHash) (txs : List RawTx),
      startsOf (inject_stream send txs).2 = txs) ∧
    (∀ (send : RawTx → Except PErr TxHash) (txs : List RawTx) (pre : List SendEv),
      pre <+: (inject_stream send txs).2 →
      finishCount pre ≤ startCount pre ∧ startCount pre ≤ finishCount pre + 1) := by
  refine ⟨?_, ?_, ?_⟩
  · intro send txs
    induction txs with
    | nil => simp [inject_stream, for_each_send]
    | cons raw_tx rest ih =>
      simp only [inject_stream] at ih ⊢
      rw [for_each_send_cons, ih]
      simp
  · intro send txs
    exact for_each_send_starts send txs
  · intro send txs pre h
    exact for_each_send_prefix_bound send txs pre h

/-- Witness for C8 at a concrete stream. -/
theorem c8_inject_stream_sequential_witness :
    startsOf (inject_stream (fun _ => Except.ok 7) [3, 4]).2 = [3, 4] ∧
    (finishCount [SendEv.start 3, SendEv.finish 3 (Except.ok 7)] ≤
      startCount [SendEv.start 3, SendEv.finish 3 (Except.ok 7)] ∧
     startCount [SendEv.start 3, SendEv.finish 3 (Except.ok 7)] ≤
      finishCount [SendEv.start 3, SendEv.finish 3 (Except.ok 7)] + 1) :=
  ⟨c8_inject_stream_sequential.2.1 (fun _ => Except.ok 7) [3, 4],
   c8_inject_stream_sequential.2.2 (fun _ => Except.ok 7) [3, 4]
     [SendEv.start 3, SendEv.finish 3 (Except.ok 7)] (by decide)⟩

/-- Counterexample to C10 as stated: a failing `send_raw_transaction` inside
the background stream task is not propagated to the requester of the
injection — `inject_stream` returns plain success while the error is only
written to the log, diverging from the spec-side propagating injection. -/
theorem c10_stream_error_not_propagated :
    (inject_stream rejectAll [0]).1 = .ok () ∧
    inject_stream_spec rejectAll [0] = .error "tx rejected" ∧
    (inject_stream rejectAll [0]).1 ≠ inject_stream_spec rejectAll [0] ∧
    SendEv.logged 0 "tx rejected" ∈ (inject_stream rejectAll [0]).2 :=
  ⟨rfl, rfl, by decide, by decide⟩

/-- C10 (amended): an error from `send_raw_transaction` is propagated to
the caller for a single injected transaction (`inject_tx` returns it
unchanged); for the background stream task, each send error is logged with
an error trace and then discarded — the injection requester receives plain
success — and the task continues injecting all subsequent transactions. -/
theorem c10_error_propagation_amended :
    (∀ (send : RawTx → Except PErr TxHash) (raw_tx : RawTx) (e : PErr),
      send raw_tx = .error e → inject_tx send raw_tx = .error e) ∧
    (∀ (send : RawTx → Except PErr TxHash) (raw_tx : RawTx) (h : TxHash),
      send raw_tx = .ok h → inject_tx send raw_tx = .ok h) ∧
    (∀ (send : RawTx → Except PErr TxHash) (stream : List RawTx),
      (inject_stream send stream).1 = .ok ()) ∧
    (∀ (send : RawTx → Except PErr TxHash) (stream : List RawTx)
        (raw_tx : RawTx) (e : PErr),
      raw_tx ∈ stream → send raw_tx = .error e →
      SendEv.logged raw_tx e ∈ (inject_stream send stream).2) ∧
    (∀ (send : RawTx → Except PErr TxHash) (stream : List RawTx),
      startsOf (inject_stream send stream).2 = stream) := by
  refine ⟨?_, ?_, ?_, ?_, ?_⟩
  · intro send raw_tx e hs
    exact hs
  · intro send raw_tx h hs
    exact hs
  · intro send stream
    rfl
  · intro send stream
    induction stream with
    | nil =>
      intro raw_tx e hmem _
      simp at hmem
    | cons q rest ih =>
      intro raw_tx e hmem hs
      simp only [inject_stream] at ih ⊢
      rw [for_each_send_cons]
      rcases List.mem_cons.mp hmem with rfl | hmem2
      · rw [hs]
        simp
      · exact List.mem_append_right _ (ih raw_tx e hmem2 hs)
  · intro send stream
    exact for_each_send_starts send stream

/-- Witness for the amended C10 at concrete inputs. -/
theorem c10_error_propagation_amended_witness :
    inject_tx rejectAll 5 = .error "tx rejected" ∧
    inject_tx (fun _ => Except.ok 9) 5 = .ok 9 ∧
    (inject_stream rejectAll [1, 2]).1 = .ok () ∧
    SendEv.logged 2 "tx rejected" ∈ (inject_stream rejectAll [1, 2]).2 ∧
    startsOf (inject_stream rejectAll [1, 2]).2 = [1, 2] :=
  ⟨c10_error_propagation_amended.1 rejectAll 5 "tx rejected" rfl,
   c10_error_propagation_amended.2.1 (fun _ => Except.ok 9) 5 9 rfl,
   c10_error_propagation_amended.2.2.1 rejectAll [1, 2],
   c10_error_propagation_amended.2.2.2.1 rejectAll [1, 2] 2 "tx rejected"
     (by decide) rfl,
   c10_error_propagation_amended.2.2.2.2 rejectAll [1, 2]⟩

end Rpc
